import Mathlib

attribute [local semireducible] Rat.add Rat.mul Rat.sub Rat.inv

/-!
Verification development for the habit-engine core (`src/engine.py`).

Shallow embedding conventions:
* calendar dates are integers (a day number); `d + 1` is the next day;
* the persistence collaborator (Supabase tables `app_meta`, `rule_defs`,
  `rule_logs`, `streaks`) is an explicit `DB` record threaded through every
  operation; SQL `ORDER BY` clauses are modelled by `List.insertionSort`
  (a stable sort, like the store's ordered reads);
* `updated_at` wall-clock timestamp columns carry no logic and are omitted;
* the `app_meta` singleton (created once on first use, immutable afterwards)
  is modelled as the always-present `DB.app_start` field;
* Python floats are modelled as rationals (`ℚ`), Python ints as `ℤ`,
  Python `//` as `Int.fdiv`;
* `raise ValueError` is modelled as an `Except`/paired error result;
  range-validation failures are `configurationError`, admin-policy failures
  are `validationError`, matching the spec's taxonomy;
* the unique index on `rule_logs (log_date, rule_key)` means a `DB` holds at
  most one row per pair; reads are modelled with `List.find?`.
-/

namespace HabitEngine

inductive LogState where
  | PASS
  | MISS
  | UNKNOWN
deriving DecidableEq, Repr

inductive StreakStatus where
  | OPEN
  | CLOSED
deriving DecidableEq, Repr

/-- Row of the `rule_defs` table. -/
structure RuleDef where
  rule_key : String
  version : Int
  effective_from : Int
  effective_to : Option Int
  name : String
  description : String
  window_days : Int
  buffer_misses : Int
  weight : ℚ
deriving DecidableEq, Repr

/-- Row of the `rule_logs` table (unique per `(log_date, rule_key)`). -/
structure LogRow where
  log_date : Int
  rule_key : String
  state : LogState
deriving DecidableEq, Repr

/-- Per-rule transient counters stored in `rule_state_json`
(`st` dicts: keys `ver`, `widx`, `misses`). -/
structure RuleSt where
  ver : Int
  widx : Int
  misses : Int
deriving DecidableEq, Repr

/-- The `end_reason_json` payload built when a rule crosses its buffer. -/
structure EndReason where
  rule_key : String
  date : Int
  misses_in_window : Int
  buffer_misses : Int
  window_days : Int
  rule_version : Int
deriving DecidableEq, Repr

/-- Row of the `streaks` table. -/
structure Streak where
  streak_id : Nat
  start_date : Int
  end_date : Option Int
  status : StreakStatus
  processed_through_date : Int
  rule_state : List (String × RuleSt)
  end_reason : Option EndReason
deriving DecidableEq, Repr

/-- The whole persisted store. -/
structure DB where
  app_start : Int
  rule_defs : List RuleDef
  rule_logs : List LogRow
  streaks : List Streak
  next_id : Nat
deriving DecidableEq, Repr

inductive EngineError where
  | configurationError
  | validationError
deriving DecidableEq, Repr

instance {e a : Type} [DecidableEq e] [DecidableEq a] : DecidableEq (Except e a) := fun x y =>
  match x, y with
  | .ok u, .ok v =>
    if h : u = v then isTrue (by rw [h]) else isFalse (fun hc => h (by injection hc))
  | .error u, .error v =>
    if h : u = v then isTrue (by rw [h]) else isFalse (fun hc => h (by injection hc))
  | .ok _, .error _ => isFalse (fun hc => by injection hc)
  | .error _, .ok _ => isFalse (fun hc => by injection hc)

/-- Database primary-key well-formedness for `streaks`: ids are distinct and
below the insertion counter. -/
def WFdb (db : DB) : Prop :=
  (db.streaks.map (·.streak_id)).Nodup ∧ ∀ s ∈ db.streaks, s.streak_id < db.next_id

instance (db : DB) : Decidable (WFdb db) :=
  inferInstanceAs (Decidable ((db.streaks.map (fun (s : Streak) => s.streak_id)).Nodup ∧
    ∀ s ∈ db.streaks, s.streak_id < db.next_id))

/-! ### Log reads and the UNKNOWN→MISS coercion (`_get_log_state`, `_force_miss_if_unknown`) -/

def findLog (logs : List LogRow) (d : Int) (k : String) : Option LogRow :=
  logs.find? (fun r => decide (r.log_date = d ∧ r.rule_key = k))

def getLogState (logs : List LogRow) (d : Int) (k : String) : LogState :=
  match findLog logs d k with
  | none => .UNKNOWN
  | some r => r.state

/-- Upsert of a MISS row on conflict target `(log_date, rule_key)`. -/
def upsertMiss (logs : List LogRow) (d : Int) (k : String) : List LogRow :=
  if (findLog logs d k).isSome then
    logs.map (fun r => if r.log_date = d ∧ r.rule_key = k then { r with state := .MISS } else r)
  else logs ++ [⟨d, k, .MISS⟩]

def forceMissIfUnknown (logs : List LogRow) (d : Int) (k : String) (st : LogState) :
    LogState × List LogRow :=
  if st = .UNKNOWN then (.MISS, upsertMiss logs d k) else (st, logs)

/-! ### Rule applicability and the per-date rule load (`_row_applies_on`,
`_load_applicable_rule_rows_for_date`) -/

def appliesOn (r : RuleDef) (d : Int) : Bool :=
  decide (r.effective_from ≤ d) &&
    (match r.effective_to with
     | none => true
     | some b => decide (d ≤ b))

/-- Strict lexicographic code-point order on strings (how the store compares
`rule_key` text, and how Python compares `str`).  Stated on the underlying
character lists. -/
def strLt (a b : String) : Prop :=
  a.data < b.data

instance : DecidableRel strLt := fun a b =>
  inferInstanceAs (Decidable (a.data < b.data))

/-- Reflexive closure of `strLt`. -/
def strLe (a b : String) : Prop :=
  a = b ∨ strLt a b

theorem strings_eq_of_data_eq {a b : String} (h : a.data = b.data) : a = b := by
  cases a
  cases b
  exact congrArg String.mk h

theorem strLt_trichotomy (a b : String) : strLt a b ∨ a = b ∨ strLt b a := by
  rcases lt_trichotomy a.data b.data with h | h | h
  · exact Or.inl h
  · exact Or.inr (Or.inl (strings_eq_of_data_eq h))
  · exact Or.inr (Or.inr h)

theorem strLt_trans {a b c : String} (h1 : strLt a b) (h2 : strLt b c) : strLt a c :=
  lt_trans h1 h2

/-- Read order of `_load_applicable_rule_rows_for_date`:
`rule_key` ascending, then `effective_from` descending. -/
def ruleRowLe (a b : RuleDef) : Prop :=
  strLt a.rule_key b.rule_key ∨
    (a.rule_key = b.rule_key ∧ b.effective_from ≤ a.effective_from)

instance : DecidableRel ruleRowLe := fun a b =>
  inferInstanceAs (Decidable (strLt a.rule_key b.rule_key ∨
    (a.rule_key = b.rule_key ∧ b.effective_from ≤ a.effective_from)))

/-- First applicable row per key, keys already grouped by the sort; a key whose
newest candidate does not apply keeps being probed on its older rows. -/
def pickApplicable (d : Int) : List RuleDef → List String → List RuleDef
  | [], _ => []
  | r :: rest, seen =>
    if r.rule_key ∈ seen then pickApplicable d rest seen
    else if appliesOn r d then r :: pickApplicable d rest (r.rule_key :: seen)
    else pickApplicable d rest seen

def loadApplicableRules (defs : List RuleDef) (d : Int) : List RuleDef :=
  pickApplicable d
    (List.insertionSort ruleRowLe (defs.filter (fun r => decide (r.effective_from ≤ d)))) []

/-! ### Window index and the per-day rule loop of `process_up_to` -/

/-- Python `(d - streak_start).days // window_days` (floor division). -/
def calcWindowIndex (streakStart d windowDays : Int) : Int :=
  Int.fdiv (d - streakStart) windowDays

def mapGet (m : List (String × RuleSt)) (k : String) : Option RuleSt :=
  (m.find? (fun p => decide (p.1 = k))).map (·.2)

def mapSet : List (String × RuleSt) → String → RuleSt → List (String × RuleSt)
  | [], k, v => [(k, v)]
  | p :: rest, k, v => if p.1 = k then (k, v) :: rest else p :: mapSet rest k v

/-- Counter state of one rule after the window-rollover block and before the
log is read: fresh counters on a missing entry, reset only when the stored
window index differs from the computed one, version updated in place. -/
def ruleBase (rs : List (String × RuleSt)) (sStart day : Int) (r : RuleDef) : RuleSt :=
  let widx := calcWindowIndex sStart day r.window_days
  match mapGet rs r.rule_key with
  | none => ⟨r.version, widx, 0⟩
  | some st => ⟨r.version, widx, if st.widx = widx then st.misses else 0⟩

/-- Log state of a rule on a day as seen by the evaluation, after the
UNKNOWN→MISS coercion. -/
def effState (logs : List LogRow) (d : Int) (k : String) : LogState :=
  match getLogState logs d k with
  | .UNKNOWN => .MISS
  | s => s

/-- The `for rule_key, rdef in applicable_rules.items()` loop body of
`process_up_to`, with its early `break` when a rule crosses its buffer. -/
def processRules (sStart day : Int) :
    List RuleDef → List (String × RuleSt) → List LogRow →
    List (String × RuleSt) × List LogRow × Option EndReason
  | [], rs, logs => (rs, logs, none)
  | r :: rest, rs, logs =>
    let st0 := ruleBase rs sStart day r
    let fm := forceMissIfUnknown logs day r.rule_key (getLogState logs day r.rule_key)
    if fm.1 = .MISS then
      let st1 : RuleSt := { st0 with misses := st0.misses + 1 }
      if r.buffer_misses < st1.misses then
        (mapSet rs r.rule_key st1, fm.2,
          some ⟨r.rule_key, day, st1.misses, r.buffer_misses, r.window_days, r.version⟩)
      else processRules sStart day rest (mapSet rs r.rule_key st1) fm.2
    else processRules sStart day rest (mapSet rs r.rule_key st0) fm.2

/-! ### Streak store operations -/

/-- Maximal-id element, i.e. `ORDER BY streak_id DESC LIMIT 1`. -/
def pickMaxStreak : List Streak → Option Streak
  | [] => none
  | s :: rest =>
    match pickMaxStreak rest with
    | none => some s
    | some t => if t.streak_id ≤ s.streak_id then some s else some t

def getOpenStreak (db : DB) : Option Streak :=
  pickMaxStreak (db.streaks.filter (fun s => decide (s.status = .OPEN)))

def createOpenStreakDB (db : DB) (startDate : Int) : DB × Streak :=
  let s : Streak :=
    ⟨db.next_id, startDate, none, .OPEN, startDate - 1, [], none⟩
  ({ db with streaks := db.streaks ++ [s], next_id := db.next_id + 1 }, s)

/-- `get_open_streak(sb) or create_open_streak(sb, app_start)`. -/
def ensureOpen (db : DB) : DB :=
  match getOpenStreak db with
  | some _ => db
  | none => (createOpenStreakDB db db.app_start).1

def updateStreak (db : DB) (sid : Nat) (f : Streak → Streak) : DB :=
  { db with streaks := db.streaks.map (fun t => if t.streak_id = sid then f t else t) }

/-- `close_streak_and_open_next`: mark CLOSED with its reason, then open the
next streak starting the day after. -/
def closeStreakAndOpenNext (db : DB) (sid : Nat) (endDate : Int) (reason : EndReason) : DB :=
  let dbA := updateStreak db sid (fun t =>
    { t with end_date := some endDate, status := .CLOSED,
             processed_through_date := endDate, end_reason := some reason })
  (createOpenStreakDB dbA (endDate + 1)).1

def openPT (db : DB) : Int :=
  match getOpenStreak db with
  | some s => s.processed_through_date
  | none => db.app_start - 1

/-! ### Rule-catalog validation (`_validate_rule_defs_no_overlaps`) -/

/-- `prev_end >= a` where a missing `effective_to` stands for `date.max`
(no real date exceeds it). -/
def endCovers (e : Option Int) (a : Int) : Bool :=
  match e with
  | none => true
  | some b => decide (a ≤ b)

def badRange (r : RuleDef) : Bool :=
  match r.effective_to with
  | none => false
  | some b => decide (b < r.effective_from)

/-- Consecutive-pair inclusive-overlap scan over one key's spans. -/
def overlapScan : List RuleDef → Bool
  | [] => false
  | [_] => false
  | a :: b :: rest => endCovers a.effective_to b.effective_from || overlapScan (b :: rest)

/-- Read order of the validation and aggregate queries:
`rule_key` ascending, then `effective_from` ascending. -/
def keyEffLe (a b : RuleDef) : Prop :=
  strLt a.rule_key b.rule_key ∨
    (a.rule_key = b.rule_key ∧ a.effective_from ≤ b.effective_from)

instance : DecidableRel keyEffLe := fun a b =>
  inferInstanceAs (Decidable (strLt a.rule_key b.rule_key ∨
    (a.rule_key = b.rule_key ∧ a.effective_from ≤ b.effective_from)))

/-- Keys in first-appearance order, without repetitions. -/
def firstKeys : List String → List String
  | [] => []
  | k :: rest => k :: (firstKeys rest).filter (fun x => decide (x ≠ k))

/-- Python's `by_key.setdefault(k, []).append(...)` grouping: each key maps to
its rows in traversal order. -/
def groupByKey (rows : List RuleDef) : List (String × List RuleDef) :=
  (firstKeys (rows.map (·.rule_key))).map
    (fun k => (k, rows.filter (fun r => decide (r.rule_key = k))))

def validateRuleDefs (defs : List RuleDef) : Bool :=
  let rows := List.insertionSort keyEffLe defs
  !(rows.any badRange) && (groupByKey rows).all (fun g => !(overlapScan g.2))

/-! ### The day-advancement loop (`process_up_to`) -/

/-- One day is consumed per recursive step; the fuel computed by
`processUpTo` is enough for the loop to reach its `break`. -/
def processLoop : Nat → DB → Int → List EndReason → DB × List EndReason
  | 0, db, _, evs => (db, evs)
  | Nat.succ fuel, db, maxDate, evs =>
    let db1 := ensureOpen db
    match getOpenStreak db1 with
    | none => (db1, evs)
    | some s =>
      if maxDate < s.processed_through_date + 1 then (db1, evs)
      else
        let nd := s.processed_through_date + 1
        let rules := loadApplicableRules db1.rule_defs nd
        let step := processRules s.start_date nd rules s.rule_state db1.rule_logs
        let db2 : DB := { db1 with rule_logs := step.2.1 }
        match step.2.2 with
        | some reason =>
          let db3 := updateStreak db2 s.streak_id (fun t => { t with rule_state := step.1 })
          let db4 := closeStreakAndOpenNext db3 s.streak_id nd reason
          processLoop fuel db4 maxDate (evs ++ [reason])
        | none =>
          let db3 := updateStreak db2 s.streak_id (fun t =>
            { t with processed_through_date := nd, rule_state := step.1 })
          processLoop fuel db3 maxDate evs

/-- `process_up_to(max_date)`: validation gate, ensure an OPEN streak, then
advance day by day up to and including `maxDate`.  Returns the final store and
the `STREAK_ENDED` events (each carried reason). -/
def processUpTo (db : DB) (maxDate : Int) : Except EngineError (DB × List EndReason) :=
  if validateRuleDefs db.rule_defs then
    let db0 := ensureOpen db
    let fuel := (maxDate + 1 - openPT db0).toNat
    .ok (processLoop fuel db0 maxDate [])
  else .error .configurationError

/-! ### Discipline index (`compute_discipline_index`) -/

/-- Inclusive day range `[a..b]` (`while d <= b`). -/
def dateRange (a b : Int) : List Int :=
  (List.range (b + 1 - a).toNat).map (fun (i : Nat) => a + (i : Int))

def logsInRange (logs : List LogRow) (a b : Int) : List LogRow :=
  logs.filter (fun r => decide (a ≤ r.log_date ∧ r.log_date ≤ b))

/-- The `versions` dict of the aggregate readers: rows with
`effective_from ≤ cutoff`, ordered key ascending / `effective_from` ascending,
grouped per key. -/
def buildVersions (defs : List RuleDef) (cutoff : Int) : List (String × List RuleDef) :=
  groupByKey
    (List.insertionSort keyEffLe (defs.filter (fun r => decide (r.effective_from ≤ cutoff))))

/-- The monotone version cursor: starting from the head, advance while the next
row's `effective_from` is on or before the day.  (The source keeps the cursor
across the ascending day sweep; over the ascending-sorted version list that is
the same row this per-day walk reaches.) -/
def cursorGo (v : RuleDef) : List RuleDef → Int → RuleDef
  | [], _ => v
  | w :: rest, d => if w.effective_from ≤ d then cursorGo w rest d else v

def cursorPick : List RuleDef → Int → Option RuleDef
  | [], _ => none
  | v :: rest, d => some (cursorGo v rest d)

/-- One key's `(numer, denom)` contribution on a day: the cursor row counts
when it applies; its weight joins the denominator always, the numerator only
on a PASS log. -/
def groupContrib (logs : List LogRow) (d : Int) (g : String × List RuleDef) : ℚ × ℚ :=
  match cursorPick g.2 d with
  | none => (0, 0)
  | some v =>
    if appliesOn v d then
      (if getLogState logs d g.1 = .PASS then v.weight else 0, v.weight)
    else (0, 0)

def dayND (versions : List (String × List RuleDef)) (logs : List LogRow) (d : Int) : ℚ × ℚ :=
  versions.foldl (fun acc g =>
    let c := groupContrib logs d g
    (acc.1 + c.1, acc.2 + c.2)) (0, 0)

structure DIResult where
  di : ℚ
  days : Nat
  start_date : Int
  end_date : Int
deriving DecidableEq, Repr

def computeDisciplineIndex (db : DB) (endDate windowDays : Int) :
    Except EngineError DIResult :=
  if validateRuleDefs db.rule_defs then
    let startDate := max db.app_start (endDate - (windowDays - 1))
    if endDate < startDate then .ok ⟨0, 0, startDate, endDate⟩
    else
      let versions := buildVersions db.rule_defs endDate
      let logs := logsInRange db.rule_logs startDate endDate
      let scores := (dateRange startDate endDate).filterMap (fun d =>
        let nd := dayND versions logs d
        if 0 < nd.2 then some (nd.1 / nd.2) else none)
      .ok ⟨if scores.isEmpty then 0 else scores.sum / (scores.length : ℚ),
           scores.length, startDate, endDate⟩
  else .error .configurationError

/-! ### Rolling time-series (`compute_di_timeseries`) -/

/-- Daily weighted completion `di1`: 0 when the day's total weight is not
positive. -/
def di1At (versions : List (String × List RuleDef)) (logs : List LogRow) (d : Int) : ℚ :=
  let nd := dayND versions logs d
  if 0 < nd.2 then nd.1 / nd.2 else 0

/-- Entry `n` of the source's `prefix` list: sum of the first `n` daily values. -/
def cumSum (xs : List ℚ) (n : Nat) : ℚ :=
  (xs.take n).sum

/-- `_avg_for_day`: prefix-sum subtraction over the window clipped to
`app_start`; indices are positions in the internal day range. -/
def avgForDay (appStart internalStart : Int) (vals : List ℚ) (day w : Int) : ℚ :=
  let s := max appStart (day - (w - 1))
  let i0 : Int := s - internalStart
  let i1 : Int := day - internalStart
  (cumSum vals (i1 + 1).toNat - cumSum vals i0.toNat) / ((i1 - i0 + 1 : Int) : ℚ)

structure TSRow where
  date : Int
  di1 : ℚ
  diA : ℚ
  diB : ℚ
deriving DecidableEq, Repr

structure TSResult where
  rows : List TSRow
  plot_start : Int
  end_date : Int
deriving DecidableEq, Repr

def computeDiTimeseries (db : DB) (endDate plotDays w1 w2 : Int) :
    Except EngineError TSResult :=
  if validateRuleDefs db.rule_defs then
    if endDate < db.app_start then .ok ⟨[], db.app_start, endDate⟩
    else
      let plotStart := max db.app_start (endDate - (plotDays - 1))
      let maxW := max w1 w2
      let internalStart := max db.app_start (plotStart - (maxW - 1))
      let versions := buildVersions db.rule_defs endDate
      let logs := logsInRange db.rule_logs internalStart endDate
      let vals := (dateRange internalStart endDate).map (di1At versions logs)
      let rows := (dateRange plotStart endDate).map (fun d =>
        ⟨d, di1At versions logs d,
         avgForDay db.app_start internalStart vals d w1,
         avgForDay db.app_start internalStart vals d w2⟩)
      .ok ⟨rows, plotStart, endDate⟩
  else .error .configurationError

/-! ### Admin: adding a rule version (`admin_add_new_version` and helpers) -/

/-- Read order `effective_from` descending. -/
def effDescLe (a b : RuleDef) : Prop :=
  b.effective_from ≤ a.effective_from

instance : DecidableRel effDescLe := fun a b =>
  inferInstanceAs (Decidable (b.effective_from ≤ a.effective_from))

/-- `admin_get_version_applicable_on`: newest-first scan for the first row
whose inclusive range contains the day. -/
def adminGetVersionApplicableOn (defs : List RuleDef) (k : String) (d : Int) : Option RuleDef :=
  (List.insertionSort effDescLe
      (defs.filter (fun r => decide (r.rule_key = k ∧ r.effective_from ≤ d)))).find?
    (fun r => appliesOn r d)

/-- `admin_get_max_version`: largest stored version of the key, 0 when none. -/
def adminGetMaxVersion (defs : List RuleDef) (k : String) : Int :=
  match (defs.filter (fun r => decide (r.rule_key = k))).map (·.version) with
  | [] => 0
  | v :: vs => vs.foldl max v

/-- `admin_add_new_version`: tomorrow-only scheduling.  The paired `DB` is the
store when the call returns (unchanged on every raised error). -/
def adminAddNewVersion (db : DB) (today : Int) (k nm descr : String)
    (wd bm : Int) (wt : ℚ) : DB × Except EngineError RuleDef :=
  let tmr := today + 1
  if ¬ db.rule_defs.any (fun r => decide (r.rule_key = k)) then
    (db, .error .validationError)
  else if db.rule_defs.any (fun r => decide (r.rule_key = k ∧ tmr < r.effective_from)) then
    (db, .error .validationError)
  else if db.rule_defs.any (fun r => decide (r.rule_key = k ∧ r.effective_from = tmr)) then
    (db, .error .validationError)
  else
    let db1 :=
      match adminGetVersionApplicableOn db.rule_defs k today with
      | some cur =>
        { db with rule_defs := db.rule_defs.map (fun (r : RuleDef) =>
            if r.rule_key = k ∧ r.version = cur.version then
              { r with effective_to := some today }
            else r) }
      | none => db
    let row : RuleDef :=
      ⟨k, adminGetMaxVersion db1.rule_defs k + 1, tmr, none, nm, descr, wd, bm, wt⟩
    ({ db1 with rule_defs := db1.rule_defs ++ [row] }, .ok row)

/-! ## Lemmas: rule-state map and log store -/

theorem mapGet_nil (k' : String) : mapGet [] k' = none := rfl

theorem mapGet_cons (p : String × RuleSt) (m : List (String × RuleSt)) (k' : String) :
    mapGet (p :: m) k' = if p.1 = k' then some p.2 else mapGet m k' := by
  unfold mapGet
  by_cases h : p.1 = k'
  · rw [List.find?_cons_of_pos _ (by simp [h])]
    simp [h]
  · rw [List.find?_cons_of_neg _ (by simp [h])]
    simp [h]

theorem mapSet_nil (k : String) (v : RuleSt) : mapSet [] k v = [(k, v)] := rfl

theorem mapSet_cons (p : String × RuleSt) (rest : List (String × RuleSt)) (k : String)
    (v : RuleSt) :
    mapSet (p :: rest) k v = if p.1 = k then (k, v) :: rest else p :: mapSet rest k v := rfl

theorem mapGet_mapSet (m : List (String × RuleSt)) (k k' : String) (v : RuleSt) :
    mapGet (mapSet m k v) k' = if k' = k then some v else mapGet m k' := by
  induction m with
  | nil =>
    rw [mapSet_nil, mapGet_cons, mapGet_nil]
    by_cases h : k' = k
    · subst h; simp
    · rw [if_neg (fun hh : k = k' => h hh.symm), if_neg h]
  | cons p rest ih =>
    by_cases hp : p.1 = k
    · rw [mapSet_cons, if_pos hp, mapGet_cons, mapGet_cons]
      by_cases h : k' = k
      · subst h; simp
      · have h1 : ¬ k = k' := fun hh => h hh.symm
        have h2 : ¬ p.1 = k' := fun hh => h1 (hp ▸ hh)
        rw [if_neg h1, if_neg h2, if_neg h]
    · rw [mapSet_cons, if_neg hp, mapGet_cons, mapGet_cons, ih]
      by_cases hpk : p.1 = k'
      · have hk : ¬ k' = k := fun hh => hp (hpk.trans hh)
        simp [hpk, hk]
      · simp [hpk]

/-- The MISS-upsert touches neither `log_date` nor `rule_key` columns. -/
theorem findLog_upsertMap (logs : List LogRow) (d : Int) (k : String) (d' : Int) (k' : String) :
    findLog (logs.map (fun r =>
        if r.log_date = d ∧ r.rule_key = k then { r with state := LogState.MISS } else r)) d' k'
      = (findLog logs d' k').map (fun r =>
        if r.log_date = d ∧ r.rule_key = k then { r with state := LogState.MISS } else r) := by
  unfold findLog
  rw [List.find?_map]
  have hpf : ((fun r => decide (r.log_date = d' ∧ r.rule_key = k')) ∘
      (fun r => if r.log_date = d ∧ r.rule_key = k then
        { r with state := LogState.MISS } else r))
      = (fun (r : LogRow) => decide (r.log_date = d' ∧ r.rule_key = k')) := by
    funext r
    by_cases h : r.log_date = d ∧ r.rule_key = k <;> simp [h]
  rw [hpf]

theorem getLogState_upsertMiss_self (logs : List LogRow) (d : Int) (k : String) :
    getLogState (upsertMiss logs d k) d k = .MISS := by
  unfold upsertMiss
  by_cases hs : (findLog logs d k).isSome
  · rw [if_pos hs]
    unfold getLogState
    rw [findLog_upsertMap]
    obtain ⟨r₀, hr₀⟩ := Option.isSome_iff_exists.mp hs
    have hp := List.find?_some hr₀
    simp only [decide_eq_true_eq] at hp
    rw [hr₀]
    simp [hp]
  · rw [if_neg hs]
    unfold getLogState findLog
    rw [List.find?_append]
    have hnone : findLog logs d k = none := by
      cases h : findLog logs d k
      · rfl
      · rw [h] at hs; simp at hs
    unfold findLog at hnone
    rw [hnone]
    simp

theorem getLogState_upsertMiss_other (logs : List LogRow) (d : Int) (k : String)
    (d' : Int) (k' : String) (h : ¬ (d' = d ∧ k' = k)) :
    getLogState (upsertMiss logs d k) d' k' = getLogState logs d' k' := by
  unfold upsertMiss
  by_cases hs : (findLog logs d k).isSome
  · rw [if_pos hs]
    unfold getLogState
    rw [findLog_upsertMap]
    cases hfind : findLog logs d' k' with
    | none => simp
    | some r₀ =>
      have hp := List.find?_some hfind
      simp only [decide_eq_true_eq] at hp
      have : ¬ (r₀.log_date = d ∧ r₀.rule_key = k) := by
        intro hc
        exact h ⟨hp.1 ▸ hc.1, hp.2 ▸ hc.2⟩
      simp [this]
  · rw [if_neg hs]
    unfold getLogState findLog
    rw [List.find?_append]
    have : List.find? (fun r => decide (r.log_date = d' ∧ r.rule_key = k'))
        [(⟨d, k, .MISS⟩ : LogRow)] = none := by
      simp only [List.find?]
      have : ¬ ((d : Int) = d' ∧ k = k') := fun hc => h ⟨hc.1.symm, hc.2.symm⟩
      simp [this]
    rw [this]
    cases hfind : List.find? (fun r => decide (r.log_date = d' ∧ r.rule_key = k')) logs <;> simp

theorem effState_ne_unknown (logs : List LogRow) (d : Int) (k : String) :
    effState logs d k ≠ .UNKNOWN := by
  unfold effState
  cases h : getLogState logs d k <;> simp

theorem effState_of_known (logs : List LogRow) (d : Int) (k : String)
    (h : getLogState logs d k ≠ .UNKNOWN) : effState logs d k = getLogState logs d k := by
  unfold effState
  cases hg : getLogState logs d k <;> simp_all

theorem effState_congr {l₁ l₂ : List LogRow} {d : Int} {k : String}
    (h : getLogState l₁ d k = getLogState l₂ d k) : effState l₁ d k = effState l₂ d k := by
  unfold effState
  rw [h]

theorem forceMiss_fst (logs : List LogRow) (d : Int) (k : String) :
    (forceMissIfUnknown logs d k (getLogState logs d k)).1 = effState logs d k := by
  unfold forceMissIfUnknown effState
  by_cases h : getLogState logs d k = .UNKNOWN
  · simp [h]
  · cases hg : getLogState logs d k <;> simp_all

theorem forceMiss_self (logs : List LogRow) (d : Int) (k : String) :
    getLogState (forceMissIfUnknown logs d k (getLogState logs d k)).2 d k
      = effState logs d k := by
  unfold forceMissIfUnknown
  by_cases h : getLogState logs d k = .UNKNOWN
  · rw [if_pos h]
    have := getLogState_upsertMiss_self logs d k
    unfold effState
    rw [h, this]
  · rw [if_neg h]
    exact (effState_of_known logs d k h).symm

theorem forceMiss_other (logs : List LogRow) (d : Int) (k : String)
    (d' : Int) (k' : String) (h : ¬ (d' = d ∧ k' = k)) :
    getLogState (forceMissIfUnknown logs d k (getLogState logs d k)).2 d' k'
      = getLogState logs d' k' := by
  unfold forceMissIfUnknown
  by_cases hu : getLogState logs d k = .UNKNOWN
  · rw [if_pos hu]
    exact getLogState_upsertMiss_other logs d k d' k' h
  · rw [if_neg hu]

/-! ## Lemmas: the per-day rule loop -/

/-- Counter record of one rule after its full day step (window handling, the
coercion, and the conditional miss increment), as an independent value. -/
def ruleFinal (rs : List (String × RuleSt)) (logs : List LogRow)
    (sStart day : Int) (r : RuleDef) : RuleSt :=
  let b := ruleBase rs sStart day r
  if effState logs day r.rule_key = .MISS then { b with misses := b.misses + 1 } else b

/-- A rule crosses its buffer on the day (independently of the other rules). -/
def wouldEnd (rs : List (String × RuleSt)) (logs : List LogRow)
    (sStart day : Int) (r : RuleDef) : Prop :=
  effState logs day r.rule_key = .MISS ∧
    r.buffer_misses < (ruleBase rs sStart day r).misses + 1

instance (rs : List (String × RuleSt)) (logs : List LogRow) (sStart day : Int) (r : RuleDef) :
    Decidable (wouldEnd rs logs sStart day r) :=
  inferInstanceAs (Decidable (effState logs day r.rule_key = .MISS ∧
    r.buffer_misses < (ruleBase rs sStart day r).misses + 1))

/-- The reason payload the engine would build for a rule crossing its buffer. -/
def mkReason (rs : List (String × RuleSt)) (sStart day : Int) (r : RuleDef) : EndReason :=
  ⟨r.rule_key, day, (ruleBase rs sStart day r).misses + 1,
   r.buffer_misses, r.window_days, r.version⟩

theorem ruleBase_ver (rs : List (String × RuleSt)) (sStart day : Int) (r : RuleDef) :
    (ruleBase rs sStart day r).ver = r.version := by
  unfold ruleBase
  cases mapGet rs r.rule_key <;> simp

theorem ruleBase_widx (rs : List (String × RuleSt)) (sStart day : Int) (r : RuleDef) :
    (ruleBase rs sStart day r).widx = calcWindowIndex sStart day r.window_days := by
  unfold ruleBase
  cases mapGet rs r.rule_key <;> simp

theorem ruleBase_mapSet_ne {r : RuleDef} {k : String} (rs : List (String × RuleSt))
    (v : RuleSt) (sStart day : Int) (h : r.rule_key ≠ k) :
    ruleBase (mapSet rs k v) sStart day r = ruleBase rs sStart day r := by
  unfold ruleBase
  rw [mapGet_mapSet, if_neg h]

theorem effState_forceMiss_ne {k k' : String} (logs : List LogRow) (day : Int)
    (h : k' ≠ k) :
    effState (forceMissIfUnknown logs day k (getLogState logs day k)).2 day k'
      = effState logs day k' := by
  apply effState_congr
  exact forceMiss_other logs day k day k' (fun hc => h hc.2)

theorem wouldEnd_step {r r' : RuleDef} (rs : List (String × RuleSt)) (logs : List LogRow)
    (v : RuleSt) (sStart day : Int) (h : r'.rule_key ≠ r.rule_key) :
    wouldEnd (mapSet rs r.rule_key v)
        (forceMissIfUnknown logs day r.rule_key (getLogState logs day r.rule_key)).2
        sStart day r'
      ↔ wouldEnd rs logs sStart day r' := by
  unfold wouldEnd
  rw [ruleBase_mapSet_ne rs v sStart day h, effState_forceMiss_ne logs day h]

theorem ruleFinal_step {r r' : RuleDef} (rs : List (String × RuleSt)) (logs : List LogRow)
    (v : RuleSt) (sStart day : Int) (h : r'.rule_key ≠ r.rule_key) :
    ruleFinal (mapSet rs r.rule_key v)
        (forceMissIfUnknown logs day r.rule_key (getLogState logs day r.rule_key)).2
        sStart day r'
      = ruleFinal rs logs sStart day r' := by
  unfold ruleFinal
  rw [ruleBase_mapSet_ne rs v sStart day h, effState_forceMiss_ne logs day h]

theorem mkReason_step {r r' : RuleDef} (rs : List (String × RuleSt))
    (v : RuleSt) (sStart day : Int) (h : r'.rule_key ≠ r.rule_key) :
    mkReason (mapSet rs r.rule_key v) sStart day r' = mkReason rs sStart day r' := by
  unfold mkReason
  rw [ruleBase_mapSet_ne rs v sStart day h]

theorem processRules_nil (sStart day : Int) (rs : List (String × RuleSt)) (logs : List LogRow) :
    processRules sStart day [] rs logs = (rs, logs, none) := rfl

theorem ruleSt_bump (rs : List (String × RuleSt)) (sStart day : Int) (r : RuleDef) :
    ({ ruleBase rs sStart day r with misses := (ruleBase rs sStart day r).misses + 1 } : RuleSt)
      = ⟨r.version, calcWindowIndex sStart day r.window_days,
         (ruleBase rs sStart day r).misses + 1⟩ := by
  unfold ruleBase
  cases mapGet rs r.rule_key <;> simp

/-- Step equation: the head rule crosses its buffer and the loop breaks. -/
theorem processRules_cons_close {sStart day : Int} {r : RuleDef} {rest : List RuleDef}
    {rs : List (String × RuleSt)} {logs : List LogRow}
    (h1 : effState logs day r.rule_key = .MISS)
    (h2 : r.buffer_misses < (ruleBase rs sStart day r).misses + 1) :
    processRules sStart day (r :: rest) rs logs =
      (mapSet rs r.rule_key
        ⟨r.version, calcWindowIndex sStart day r.window_days,
         (ruleBase rs sStart day r).misses + 1⟩,
       (forceMissIfUnknown logs day r.rule_key (getLogState logs day r.rule_key)).2,
       some (mkReason rs sStart day r)) := by
  have hfst := forceMiss_fst logs day r.rule_key
  simp only [processRules, hfst, h1, if_true, if_pos h2, ruleSt_bump, mkReason]

/-- Step equation: the head rule logs a MISS inside its buffer. -/
theorem processRules_cons_stepMiss {sStart day : Int} {r : RuleDef} {rest : List RuleDef}
    {rs : List (String × RuleSt)} {logs : List LogRow}
    (h1 : effState logs day r.rule_key = .MISS)
    (h2 : ¬ r.buffer_misses < (ruleBase rs sStart day r).misses + 1) :
    processRules sStart day (r :: rest) rs logs =
      processRules sStart day rest
        (mapSet rs r.rule_key
          { ruleBase rs sStart day r with misses := (ruleBase rs sStart day r).misses + 1 })
        (forceMissIfUnknown logs day r.rule_key (getLogState logs day r.rule_key)).2 := by
  have hfst := forceMiss_fst logs day r.rule_key
  simp only [processRules, hfst, h1, if_true, if_neg h2]

/-- Step equation: the head rule does not log a MISS. -/
theorem processRules_cons_stepPass {sStart day : Int} {r : RuleDef} {rest : List RuleDef}
    {rs : List (String × RuleSt)} {logs : List LogRow}
    (h1 : ¬ effState logs day r.rule_key = .MISS) :
    processRules sStart day (r :: rest) rs logs =
      processRules sStart day rest (mapSet rs r.rule_key (ruleBase rs sStart day r))
        (forceMissIfUnknown logs day r.rule_key (getLogState logs day r.rule_key)).2 := by
  have hfst := forceMiss_fst logs day r.rule_key
  simp only [processRules, hfst, if_neg h1]

/-- Step equation: the head rule does not cross its buffer, the loop goes on;
its stored record is its independent day-step value. -/
theorem processRules_cons_go {sStart day : Int} {r : RuleDef} {rest : List RuleDef}
    {rs : List (String × RuleSt)} {logs : List LogRow}
    (hnoEnd : ¬ wouldEnd rs logs sStart day r) :
    processRules sStart day (r :: rest) rs logs =
      processRules sStart day rest
        (mapSet rs r.rule_key (ruleFinal rs logs sStart day r))
        (forceMissIfUnknown logs day r.rule_key (getLogState logs day r.rule_key)).2 := by
  by_cases hm : effState logs day r.rule_key = .MISS
  · have hb : ¬ r.buffer_misses < (ruleBase rs sStart day r).misses + 1 :=
      fun hb => hnoEnd ⟨hm, hb⟩
    rw [processRules_cons_stepMiss hm hb]
    unfold ruleFinal
    rw [if_pos hm]
  · rw [processRules_cons_stepPass hm]
    unfold ruleFinal
    rw [if_neg hm]

/-- Inversion of a day step that did not end the streak: no applicable rule
crossed its buffer, every applicable rule's stored counters equal its
independent day-step value, its persisted log is its coerced state, and
nothing else in the rule-state map or the log store changed. -/
theorem processRules_none_inv {sStart day : Int} :
    ∀ (rules : List RuleDef) (rs : List (String × RuleSt)) (logs : List LogRow)
      (rsOut : List (String × RuleSt)) (logsOut : List LogRow),
      (rules.map (·.rule_key)).Nodup →
      processRules sStart day rules rs logs = (rsOut, logsOut, none) →
      (∀ r ∈ rules, ¬ wouldEnd rs logs sStart day r) ∧
      (∀ r ∈ rules, mapGet rsOut r.rule_key = some (ruleFinal rs logs sStart day r)) ∧
      (∀ k, (∀ r ∈ rules, r.rule_key ≠ k) → mapGet rsOut k = mapGet rs k) ∧
      (∀ r ∈ rules, getLogState logsOut day r.rule_key = effState logs day r.rule_key) ∧
      (∀ d' k', (d' ≠ day ∨ ∀ r ∈ rules, r.rule_key ≠ k') →
          getLogState logsOut d' k' = getLogState logs d' k') := by
  intro rules
  induction rules with
  | nil =>
    intro rs logs rsOut logsOut _ h
    rw [processRules_nil] at h
    simp only [Prod.mk.injEq] at h
    obtain ⟨h1, h2, -⟩ := h
    subst h1; subst h2
    exact ⟨by simp, by simp, fun k _ => rfl, by simp, fun d' k' _ => rfl⟩
  | cons r rest ih =>
    intro rs logs rsOut logsOut hnd h
    rw [List.map_cons, List.nodup_cons] at hnd
    have hkeys : ∀ r' ∈ rest, r'.rule_key ≠ r.rule_key := by
      intro r' hr' heq
      exact hnd.1 (heq ▸ List.mem_map_of_mem (·.rule_key) hr')
    have hnoEnd : ¬ wouldEnd rs logs sStart day r := by
      intro hw
      rw [processRules_cons_close hw.1 hw.2] at h
      have := congrArg (fun t => t.2.2) h
      simp at this
    rw [processRules_cons_go hnoEnd] at h
    obtain ⟨P1, P2, P3, P4, P5⟩ := ih _ _ _ _ hnd.2 h
    refine ⟨?_, ?_, ?_, ?_, ?_⟩
    · intro r' hr'
      rcases List.mem_cons.mp hr' with hEq | hMem
      · exact hEq ▸ hnoEnd
      · exact fun hw => P1 r' hMem
          ((wouldEnd_step rs logs (ruleFinal rs logs sStart day r) sStart day
            (hkeys r' hMem)).mpr hw)
    · intro r' hr'
      rcases List.mem_cons.mp hr' with hEq | hMem
      · subst hEq
        rw [P3 r'.rule_key (fun q hq => hkeys q hq), mapGet_mapSet, if_pos rfl]
      · rw [P2 r' hMem,
          ruleFinal_step rs logs (ruleFinal rs logs sStart day r) sStart day (hkeys r' hMem)]
    · intro k hk
      rw [P3 k (fun q hq => hk q (List.mem_cons_of_mem r hq)), mapGet_mapSet,
        if_neg (fun hc : k = r.rule_key => hk r (List.mem_cons_self r rest) hc.symm)]
    · intro r' hr'
      rcases List.mem_cons.mp hr' with hEq | hMem
      · subst hEq
        rw [P5 day r'.rule_key (Or.inr (fun q hq => hkeys q hq)), forceMiss_self]
      · rw [P4 r' hMem, effState_forceMiss_ne logs day (hkeys r' hMem)]
    · intro d' k' hcond
      have hcond' : d' ≠ day ∨ ∀ q ∈ rest, q.rule_key ≠ k' := by
        rcases hcond with hd | hk
        · exact Or.inl hd
        · exact Or.inr (fun q hq => hk q (List.mem_cons_of_mem r hq))
      rw [P5 d' k' hcond']
      apply forceMiss_other
      rintro ⟨rfl, rfl⟩
      rcases hcond with hd | hk
      · exact hd rfl
      · exact hk r (List.mem_cons_self r rest) rfl

/-- Inversion of a day step that ended the streak: the reason is built from
the first buffer-crossing rule in load order; its terminal counters are in
the returned rule-state; its log and every earlier rule's log is coerced. -/
theorem processRules_some_inv {sStart day : Int} :
    ∀ (rules : List RuleDef) (rs : List (String × RuleSt)) (logs : List LogRow)
      (rsOut : List (String × RuleSt)) (logsOut : List LogRow) (reason : EndReason),
      (rules.map (·.rule_key)).Nodup →
      processRules sStart day rules rs logs = (rsOut, logsOut, some reason) →
      ∃ pre rr post, rules = pre ++ rr :: post ∧
        (∀ p ∈ pre, ¬ wouldEnd rs logs sStart day p) ∧
        wouldEnd rs logs sStart day rr ∧
        reason = mkReason rs sStart day rr ∧
        mapGet rsOut rr.rule_key = some
          ⟨rr.version, calcWindowIndex sStart day rr.window_days,
           (ruleBase rs sStart day rr).misses + 1⟩ ∧
        getLogState logsOut day rr.rule_key = effState logs day rr.rule_key ∧
        (∀ p ∈ pre, getLogState logsOut day p.rule_key = effState logs day p.rule_key) ∧
        (∀ d' k', (d' ≠ day ∨ ∀ q ∈ rules, q.rule_key ≠ k') →
            getLogState logsOut d' k' = getLogState logs d' k') := by
  intro rules
  induction rules with
  | nil =>
    intro rs logs rsOut logsOut reason _ h
    rw [processRules_nil] at h
    simp at h
  | cons r rest ih =>
    intro rs logs rsOut logsOut reason hnd h
    rw [List.map_cons, List.nodup_cons] at hnd
    have hkeys : ∀ r' ∈ rest, r'.rule_key ≠ r.rule_key := by
      intro r' hr' heq
      exact hnd.1 (heq ▸ List.mem_map_of_mem (·.rule_key) hr')
    by_cases hw : wouldEnd rs logs sStart day r
    · rw [processRules_cons_close hw.1 hw.2] at h
      simp only [Prod.mk.injEq] at h
      obtain ⟨h1, h2, h3⟩ := h
      refine ⟨[], r, rest, rfl, by simp, hw, ?_, ?_, ?_, by simp, ?_⟩
      · injection h3 with h3'
        exact h3'.symm
      · rw [← h1, mapGet_mapSet, if_pos rfl]
      · rw [← h2, forceMiss_self]
      · intro d' k' hcond
        rw [← h2]
        apply forceMiss_other
        rintro ⟨rfl, rfl⟩
        rcases hcond with hd | hk
        · exact hd rfl
        · exact hk r (List.mem_cons_self r rest) rfl
    · rw [processRules_cons_go hw] at h
      obtain ⟨pre, rr, post, hsplit, hpre, hwr, hreason, hmap, hlogF, hlogPre, hlogOther⟩ :=
        ih _ _ _ _ _ hnd.2 h
      have hrrMem : rr ∈ rest := hsplit ▸ List.mem_append_right pre (List.mem_cons_self rr post)
      have hrrKey : rr.rule_key ≠ r.rule_key := hkeys rr hrrMem
      have hpreMem : ∀ p ∈ pre, p ∈ rest := by
        intro p hp
        exact hsplit ▸ List.mem_append_left _ hp
      refine ⟨r :: pre, rr, post, by rw [List.cons_append, hsplit], ?_, ?_, ?_, ?_, ?_, ?_, ?_⟩
      · intro p hp
        rcases List.mem_cons.mp hp with hEq | hMem
        · exact hEq ▸ hw
        · exact fun hc => hpre p hMem
            ((wouldEnd_step rs logs (ruleFinal rs logs sStart day r) sStart day
              (hkeys p (hpreMem p hMem))).mpr hc)
      · exact (wouldEnd_step rs logs (ruleFinal rs logs sStart day r) sStart day hrrKey).mp hwr
      · rw [hreason, mkReason_step rs (ruleFinal rs logs sStart day r) sStart day hrrKey]
      · rw [hmap, ruleBase_mapSet_ne rs (ruleFinal rs logs sStart day r) sStart day hrrKey]
      · rw [hlogF, effState_forceMiss_ne logs day hrrKey]
      · intro p hp
        rcases List.mem_cons.mp hp with hEq | hMem
        · subst hEq
          rw [hlogOther day p.rule_key (Or.inr (fun q hq => hkeys q hq)), forceMiss_self]
        · rw [hlogPre p hMem, effState_forceMiss_ne logs day (hkeys p (hpreMem p hMem))]
      · intro d' k' hcond
        have hcond' : d' ≠ day ∨ ∀ q ∈ rest, q.rule_key ≠ k' := by
          rcases hcond with hd | hk
          · exact Or.inl hd
          · exact Or.inr (fun q hq => hk q (List.mem_cons_of_mem r hq))
        rw [hlogOther d' k' hcond']
        apply forceMiss_other
        rintro ⟨rfl, rfl⟩
        rcases hcond with hd | hk
        · exact hd rfl
        · exact hk r (List.mem_cons_self r rest) rfl

/-- If some rule of the day list would cross its buffer, the day step ends the
streak. -/
theorem processRules_some_of_exists {sStart day : Int} (rules : List RuleDef)
    (rs : List (String × RuleSt)) (logs : List LogRow)
    (hnd : (rules.map (·.rule_key)).Nodup)
    (hex : ∃ r ∈ rules, wouldEnd rs logs sStart day r) :
    ∃ rsOut logsOut reason,
      processRules sStart day rules rs logs = (rsOut, logsOut, some reason) := by
  rcases hres : processRules sStart day rules rs logs with ⟨rsOut, logsOut, reasonOpt⟩
  cases reasonOpt with
  | none =>
    obtain ⟨P1, -⟩ := processRules_none_inv rules rs logs rsOut logsOut hnd hres
    obtain ⟨r, hr, hw⟩ := hex
    exact absurd hw (P1 r hr)
  | some reason => exact ⟨rsOut, logsOut, reason, rfl⟩

/-! ## Lemmas: order and distinctness of the loaded day rules -/

instance : IsTotal RuleDef ruleRowLe where
  total a b := by
    unfold ruleRowLe
    rcases strLt_trichotomy a.rule_key b.rule_key with h | h | h
    · exact Or.inl (Or.inl h)
    · rcases le_total b.effective_from a.effective_from with he | he
      · exact Or.inl (Or.inr ⟨h, he⟩)
      · exact Or.inr (Or.inr ⟨h.symm, he⟩)
    · exact Or.inr (Or.inl h)

instance : IsTrans RuleDef ruleRowLe where
  trans a b c hab hbc := by
    unfold ruleRowLe at *
    rcases hab with h1 | ⟨h1, e1⟩
    · rcases hbc with h2 | ⟨h2, e2⟩
      · exact Or.inl (strLt_trans h1 h2)
      · exact Or.inl (h2 ▸ h1)
    · rcases hbc with h2 | ⟨h2, e2⟩
      · exact Or.inl (h1 ▸ h2)
      · exact Or.inr ⟨h1.trans h2, e2.trans e1⟩

instance : IsTotal RuleDef keyEffLe where
  total a b := by
    unfold keyEffLe
    rcases strLt_trichotomy a.rule_key b.rule_key with h | h | h
    · exact Or.inl (Or.inl h)
    · rcases le_total a.effective_from b.effective_from with he | he
      · exact Or.inl (Or.inr ⟨h, he⟩)
      · exact Or.inr (Or.inr ⟨h.symm, he⟩)
    · exact Or.inr (Or.inl h)

instance : IsTrans RuleDef keyEffLe where
  trans a b c hab hbc := by
    unfold keyEffLe at *
    rcases hab with h1 | ⟨h1, e1⟩
    · rcases hbc with h2 | ⟨h2, e2⟩
      · exact Or.inl (strLt_trans h1 h2)
      · exact Or.inl (h2 ▸ h1)
    · rcases hbc with h2 | ⟨h2, e2⟩
      · exact Or.inl (h1 ▸ h2)
      · exact Or.inr ⟨h1.trans h2, e1.trans e2⟩

instance : IsTotal RuleDef effDescLe where
  total a b := by
    unfold effDescLe
    exact (le_total b.effective_from a.effective_from).imp id id

instance : IsTrans RuleDef effDescLe where
  trans a b c hab hbc := by
    unfold effDescLe at *
    exact hbc.trans hab

theorem pickApplicable_sublist (d : Int) (l : List RuleDef) :
    ∀ seen, (pickApplicable d l seen).Sublist l := by
  induction l with
  | nil => intro seen; simp [pickApplicable]
  | cons r rest ih =>
    intro seen
    by_cases h1 : r.rule_key ∈ seen
    · simp only [pickApplicable, if_pos h1]
      exact (ih seen).cons r
    · by_cases h2 : appliesOn r d = true
      · simp only [pickApplicable, if_neg h1, if_pos h2]
        exact (ih _).cons₂ r
      · simp only [pickApplicable, if_neg h1, if_neg h2]
        exact (ih seen).cons r

theorem pickApplicable_keys (d : Int) (l : List RuleDef) :
    ∀ seen, (∀ x ∈ pickApplicable d l seen, x.rule_key ∉ seen) ∧
      ((pickApplicable d l seen).map (·.rule_key)).Nodup := by
  induction l with
  | nil => intro seen; simp [pickApplicable]
  | cons r rest ih =>
    intro seen
    by_cases h1 : r.rule_key ∈ seen
    · simp only [pickApplicable, if_pos h1]
      exact ih seen
    · by_cases h2 : appliesOn r d = true
      · simp only [pickApplicable, if_neg h1, if_pos h2]
        obtain ⟨ihA, ihB⟩ := ih (r.rule_key :: seen)
        refine ⟨?_, ?_⟩
        · intro x hx
          rcases List.mem_cons.mp hx with hEq | hMem
          · exact hEq ▸ h1
          · exact fun hc => (ihA x hMem) (List.mem_cons_of_mem _ hc)
        · rw [List.map_cons, List.nodup_cons]
          refine ⟨?_, ihB⟩
          intro hc
          obtain ⟨y, hy, hyk⟩ := List.mem_map.mp hc
          exact (ihA y hy) (hyk ▸ List.mem_cons_self _ _)
      · simp only [pickApplicable, if_neg h1, if_neg h2]
        exact ih seen

theorem loadApplicable_keys_nodup (defs : List RuleDef) (d : Int) :
    ((loadApplicableRules defs d).map (·.rule_key)).Nodup :=
  (pickApplicable_keys d _ []).2

theorem loadApplicable_pairwise_lt (defs : List RuleDef) (d : Int) :
    (loadApplicableRules defs d).Pairwise (fun a b => strLt a.rule_key b.rule_key) := by
  have hsorted :
      (List.insertionSort ruleRowLe
        (defs.filter (fun r => decide (r.effective_from ≤ d)))).Pairwise ruleRowLe :=
    List.sorted_insertionSort ruleRowLe _
  have hsub := pickApplicable_sublist d
    (List.insertionSort ruleRowLe (defs.filter (fun r => decide (r.effective_from ≤ d)))) []
  have hpw : (loadApplicableRules defs d).Pairwise ruleRowLe :=
    List.Pairwise.sublist hsub hsorted
  have hnd : (loadApplicableRules defs d).Pairwise (fun a b => a.rule_key ≠ b.rule_key) :=
    List.pairwise_map.mp (loadApplicable_keys_nodup defs d)
  refine (hpw.and hnd).imp ?_
  rintro a b ⟨hle, hne⟩
  rcases hle with h | ⟨heq, -⟩
  · exact h
  · exact absurd heq hne

/-! ## Lemmas: the streak store -/

theorem pickMaxStreak_mem : ∀ {l : List Streak} {s : Streak},
    pickMaxStreak l = some s → s ∈ l := by
  intro l
  induction l with
  | nil => intro s h; simp [pickMaxStreak] at h
  | cons t rest ih =>
    intro s h
    cases hr : pickMaxStreak rest with
    | none =>
      simp only [pickMaxStreak, hr] at h
      injection h with h'
      exact h' ▸ List.mem_cons_self t rest
    | some u =>
      simp only [pickMaxStreak, hr] at h
      by_cases hc : u.streak_id ≤ t.streak_id
      · rw [if_pos hc] at h
        injection h with h'
        exact h' ▸ List.mem_cons_self t rest
      · rw [if_neg hc] at h
        injection h with h'
        exact h' ▸ List.mem_cons_of_mem t (ih hr)

theorem pickMaxStreak_eq_none {l : List Streak} (h : pickMaxStreak l = none) : l = [] := by
  cases l with
  | nil => rfl
  | cons t rest =>
    simp only [pickMaxStreak] at h
    cases hr : pickMaxStreak rest with
    | none => rw [hr] at h; simp at h
    | some u =>
      rw [hr] at h
      by_cases hc : u.streak_id ≤ t.streak_id <;> simp [hc] at h

theorem pickMaxStreak_map (g : Streak → Streak) (hg : ∀ x, (g x).streak_id = x.streak_id) :
    ∀ l : List Streak, pickMaxStreak (l.map g) = (pickMaxStreak l).map g := by
  intro l
  induction l with
  | nil => rfl
  | cons t rest ih =>
    simp only [List.map_cons, pickMaxStreak, ih]
    cases hr : pickMaxStreak rest with
    | none => rfl
    | some u =>
      simp only [Option.map_some']
      rw [hg u, hg t]
      by_cases hc : u.streak_id ≤ t.streak_id <;> simp [hc]

theorem pickMaxStreak_append_big {l : List Streak} {s : Streak}
    (h : ∀ x ∈ l, x.streak_id < s.streak_id) :
    pickMaxStreak (l ++ [s]) = some s := by
  induction l with
  | nil => rfl
  | cons t rest ih =>
    have ht := h t (List.mem_cons_self t rest)
    rw [List.cons_append]
    simp only [pickMaxStreak, ih (fun x hx => h x (List.mem_cons_of_mem t hx))]
    rw [if_neg (by omega)]

theorem getOpenStreak_mem {db : DB} {s : Streak} (h : getOpenStreak db = some s) :
    s ∈ db.streaks ∧ s.status = .OPEN := by
  have hm := pickMaxStreak_mem h
  have := List.mem_filter.mp hm
  exact ⟨this.1, by simpa using this.2⟩

theorem filterOpen_map_update {l : List Streak} {s : Streak} (f : Streak → Streak)
    (huniq : ∀ t ∈ l, t.streak_id = s.streak_id → t = s)
    (hfs : (f s).status = .OPEN) (hss : s.status = .OPEN) :
    (l.map (fun t => if t.streak_id = s.streak_id then f t else t)).filter
        (fun t => decide (t.status = .OPEN))
      = (l.filter (fun t => decide (t.status = .OPEN))).map
        (fun t => if t.streak_id = s.streak_id then f t else t) := by
  induction l with
  | nil => rfl
  | cons t rest ih =>
    have ih' := ih (fun q hq => huniq q (List.mem_cons_of_mem t hq))
    simp only [List.map_cons, List.filter_cons]
    by_cases hid : t.streak_id = s.streak_id
    · have ht : t = s := huniq t (List.mem_cons_self t rest) hid
      subst ht
      rw [if_pos hid]
      rw [if_pos (show decide ((f t).status = .OPEN) = true by simp [hfs]),
          if_pos (show decide (t.status = .OPEN) = true by simp [hss])]
      rw [List.map_cons, if_pos hid, ih']
    · rw [if_neg hid]
      by_cases hopen : t.status = .OPEN
      · rw [if_pos (show decide (t.status = .OPEN) = true by simp [hopen]),
            if_pos (show decide (t.status = .OPEN) = true by simp [hopen])]
        rw [List.map_cons, if_neg hid, ih']
      · rw [if_neg (show ¬ decide (t.status = .OPEN) = true by simp [hopen]),
            if_neg (show ¬ decide (t.status = .OPEN) = true by simp [hopen])]
        exact ih'

theorem streaks_id_uniq {db : DB} {s : Streak} (hwf : WFdb db) (hs : s ∈ db.streaks) :
    ∀ t ∈ db.streaks, t.streak_id = s.streak_id → t = s := by
  intro t ht heq
  exact List.inj_on_of_nodup_map hwf.1 ht hs heq

theorem getOpenStreak_updateStreak_open {db : DB} {s : Streak} (f : Streak → Streak)
    (hwf : WFdb db) (hs : getOpenStreak db = some s)
    (hid : ∀ t, (f t).streak_id = t.streak_id) (hfs : (f s).status = .OPEN) :
    getOpenStreak (updateStreak db s.streak_id f) = some (f s) := by
  obtain ⟨hmem, hopen⟩ := getOpenStreak_mem hs
  have huniq := streaks_id_uniq hwf hmem
  unfold updateStreak getOpenStreak
  simp only []
  rw [filterOpen_map_update f huniq hfs hopen]
  rw [pickMaxStreak_map _ (fun x => by by_cases hx : x.streak_id = s.streak_id <;>
        simp [hx, hid x])]
  unfold getOpenStreak at hs
  rw [hs]
  simp

theorem getOpenStreak_logsSet (db : DB) (logs : List LogRow) :
    getOpenStreak { db with rule_logs := logs } = getOpenStreak db := rfl

theorem getOpenStreak_close {db : DB} {s : Streak} (hwf : WFdb db)
    (_hs : getOpenStreak db = some s) (endDate : Int) (reason : EndReason) :
    getOpenStreak (closeStreakAndOpenNext db s.streak_id endDate reason)
      = some ⟨db.next_id, endDate + 1, none, .OPEN, endDate, [], none⟩ := by
  unfold closeStreakAndOpenNext createOpenStreakDB updateStreak getOpenStreak
  simp only [add_sub_cancel_right]
  rw [List.filter_append]
  have hone : List.filter (fun t => decide (t.status = .OPEN))
      [(⟨db.next_id, endDate + 1, none, .OPEN, endDate, [], none⟩ : Streak)]
      = [⟨db.next_id, endDate + 1, none, .OPEN, endDate, [], none⟩] := by
    simp
  rw [hone]
  apply pickMaxStreak_append_big
  intro x hx
  have hx1 := List.mem_filter.mp hx
  obtain ⟨y, hy, hxy⟩ := List.mem_map.mp hx1.1
  have : x.streak_id = y.streak_id := by
    rw [← hxy]
    by_cases hc : y.streak_id = s.streak_id <;> simp [hc]
  rw [this]
  exact hwf.2 y hy

theorem WFdb_updateStreak {db : DB} (sid : Nat) (f : Streak → Streak)
    (hwf : WFdb db) (hid : ∀ t, (f t).streak_id = t.streak_id) :
    WFdb (updateStreak db sid f) := by
  constructor
  · have hmap : (updateStreak db sid f).streaks.map (·.streak_id)
        = db.streaks.map (·.streak_id) := by
      unfold updateStreak
      simp only [List.map_map]
      apply List.map_congr_left
      intro t _
      by_cases hc : t.streak_id = sid <;> simp [hc, hid t]
    rw [hmap]
    exact hwf.1
  · intro s hs
    unfold updateStreak at hs
    simp only [List.mem_map] at hs
    obtain ⟨t, ht, rfl⟩ := hs
    have : (if t.streak_id = sid then f t else t).streak_id = t.streak_id := by
      by_cases hc : t.streak_id = sid <;> simp [hc, hid t]
    rw [this]
    exact hwf.2 t ht

theorem WFdb_create {db : DB} (startDate : Int) (hwf : WFdb db) :
    WFdb (createOpenStreakDB db startDate).1 := by
  constructor
  · unfold createOpenStreakDB
    simp only [List.map_append, List.map_cons, List.map_nil]
    rw [List.nodup_append]
    refine ⟨hwf.1, by simp, ?_⟩
    intro a ha hb
    simp only [List.mem_singleton] at hb
    obtain ⟨y, hy, rfl⟩ := List.mem_map.mp ha
    have := hwf.2 y hy
    omega
  · intro s hs
    unfold createOpenStreakDB at hs
    simp only [List.mem_append, List.mem_singleton] at hs
    rcases hs with hs | rfl
    · have := hwf.2 s hs
      simp only [createOpenStreakDB]
      omega
    · simp [createOpenStreakDB]

theorem ensureOpen_eq_of_some {db : DB} {s : Streak} (h : getOpenStreak db = some s) :
    ensureOpen db = db := by
  unfold ensureOpen
  rw [h]

theorem getOpenStreak_ensureOpen (db : DB) :
    ∃ s, getOpenStreak (ensureOpen db) = some s := by
  unfold ensureOpen
  cases h : getOpenStreak db with
  | some s => exact ⟨s, h⟩
  | none =>
    have hempty : db.streaks.filter (fun t => decide (t.status = .OPEN)) = [] := by
      unfold getOpenStreak at h
      exact pickMaxStreak_eq_none h
    refine ⟨⟨db.next_id, db.app_start, none, .OPEN, db.app_start - 1, [], none⟩, ?_⟩
    unfold getOpenStreak createOpenStreakDB
    simp only []
    rw [List.filter_append, hempty]
    simp [pickMaxStreak]

theorem WFdb_ensureOpen {db : DB} (hwf : WFdb db) : WFdb (ensureOpen db) := by
  unfold ensureOpen
  cases h : getOpenStreak db with
  | some s => exact hwf
  | none => exact WFdb_create db.app_start hwf

theorem ensureOpen_defs (db : DB) :
    (ensureOpen db).rule_defs = db.rule_defs ∧ (ensureOpen db).app_start = db.app_start ∧
      (ensureOpen db).rule_logs = db.rule_logs := by
  unfold ensureOpen
  cases getOpenStreak db <;> exact ⟨rfl, rfl, rfl⟩

theorem WFdb_close {db : DB} (sid : Nat) (endDate : Int) (reason : EndReason)
    (hwf : WFdb db) : WFdb (closeStreakAndOpenNext db sid endDate reason) := by
  unfold closeStreakAndOpenNext
  exact WFdb_create _ (WFdb_updateStreak sid _ hwf (fun t => rfl))

/-- Once the open streak has been advanced through the target date, the loop
stops without touching the store. -/
theorem processLoop_break {fuel : Nat} {db : DB} {maxDate : Int} {evs : List EndReason}
    {s : Streak} (hs : getOpenStreak db = some s)
    (hle : maxDate ≤ s.processed_through_date) :
    processLoop fuel db maxDate evs = (db, evs) := by
  cases fuel with
  | zero => rfl
  | succ fuel =>
    have hens := ensureOpen_eq_of_some hs
    simp only [processLoop, hens, hs]
    rw [if_pos (by omega)]

/-- With the fuel `processUpTo` computes, the loop always reaches the break:
the final store has an open streak processed through the target date; rule
definitions and the app start are never touched. -/
theorem processLoop_reach : ∀ (fuel : Nat) (db : DB) (maxDate : Int) (evs : List EndReason)
    (s : Streak), WFdb db → getOpenStreak db = some s →
    (maxDate + 1 - s.processed_through_date).toNat ≤ fuel →
    ∃ s', getOpenStreak (processLoop fuel db maxDate evs).1 = some s' ∧
      maxDate ≤ s'.processed_through_date ∧
      WFdb (processLoop fuel db maxDate evs).1 ∧
      (processLoop fuel db maxDate evs).1.rule_defs = db.rule_defs ∧
      (processLoop fuel db maxDate evs).1.app_start = db.app_start := by
  intro fuel
  induction fuel with
  | zero =>
    intro db maxDate evs s hwf hs hfuel
    have hle : maxDate ≤ s.processed_through_date := by omega
    exact ⟨s, hs, hle, hwf, rfl, rfl⟩
  | succ fuel ih =>
    intro db maxDate evs s hwf hs hfuel
    have hens := ensureOpen_eq_of_some hs
    by_cases hbreak : maxDate < s.processed_through_date + 1
    · rw [processLoop_break hs (by omega)]
      exact ⟨s, hs, by omega, hwf, rfl, rfl⟩
    · have hsopen : s.status = .OPEN := (getOpenStreak_mem hs).2
      simp only [processLoop, hens, hs, if_neg hbreak]
      rcases hstep : processRules s.start_date (s.processed_through_date + 1)
          (loadApplicableRules db.rule_defs (s.processed_through_date + 1))
          s.rule_state db.rule_logs with ⟨rsOut, logsOut, reasonOpt⟩
      simp only [hstep]
      have hwf2 : WFdb { db with rule_logs := logsOut } := hwf
      have hs2 : getOpenStreak { db with rule_logs := logsOut } = some s := hs
      cases reasonOpt with
      | none =>
        have hopen3 := getOpenStreak_updateStreak_open
          (fun t => { t with processed_through_date := s.processed_through_date + 1,
                             rule_state := rsOut })
          hwf2 hs2 (fun t => rfl) hsopen
        have hwf3 := WFdb_updateStreak s.streak_id
          (fun t => { t with processed_through_date := s.processed_through_date + 1,
                             rule_state := rsOut })
          hwf2 (fun t => rfl)
        obtain ⟨s', h1, h2, h3, h4, h5⟩ := ih _ maxDate evs _ hwf3 hopen3 (by
          simp only []
          omega)
        exact ⟨s', h1, h2, h3, h4, h5⟩
      | some reason =>
        have hopen3 := getOpenStreak_updateStreak_open
          (fun t => { t with rule_state := rsOut }) hwf2 hs2 (fun t => rfl) hsopen
        have hwf3 := WFdb_updateStreak s.streak_id
          (fun t => { t with rule_state := rsOut }) hwf2 (fun t => rfl)
        have hopen4 := getOpenStreak_close hwf3 hopen3
          (s.processed_through_date + 1) reason
        have hwf4 := WFdb_close s.streak_id (s.processed_through_date + 1) reason hwf3
        obtain ⟨s', h1, h2, h3, h4, h5⟩ := ih _ maxDate (evs ++ [reason]) _ hwf4 hopen4 (by
          simp only []
          omega)
        exact ⟨s', h1, h2, h3, h4, h5⟩

theorem openPT_of_some {db : DB} {s : Streak} (h : getOpenStreak db = some s) :
    openPT db = s.processed_through_date := by
  unfold openPT
  rw [h]

/-- C3 helper: what one completed `processUpTo` call guarantees about its
final store. -/
theorem processUpTo_post {db : DB} {maxDate : Int} {db1 : DB} {evs : List EndReason}
    (hwf : WFdb db) (h : processUpTo db maxDate = .ok (db1, evs)) :
    validateRuleDefs db1.rule_defs = true ∧ WFdb db1 ∧
      ∃ s1, getOpenStreak db1 = some s1 ∧ maxDate ≤ s1.processed_through_date := by
  unfold processUpTo at h
  by_cases hv : validateRuleDefs db.rule_defs = true
  · rw [if_pos hv] at h
    obtain ⟨s0, hs0⟩ := getOpenStreak_ensureOpen db
    have hwf0 : WFdb (ensureOpen db) := WFdb_ensureOpen hwf
    have hfuel : (maxDate + 1 - s0.processed_through_date).toNat
        ≤ (maxDate + 1 - openPT (ensureOpen db)).toNat := by
      rw [openPT_of_some hs0]
    obtain ⟨s', h1, h2, h3, h4, h5⟩ :=
      processLoop_reach _ (ensureOpen db) maxDate [] s0 hwf0 hs0 hfuel
    have hdb1 : (processLoop ((maxDate + 1 - openPT (ensureOpen db)).toNat)
        (ensureOpen db) maxDate []).1 = db1 := by
      injection h with h'
      exact congrArg Prod.fst h'
    rw [hdb1] at h1 h3 h4
    constructor
    · rw [h4, (ensureOpen_defs db).1]
      exact hv
    · exact ⟨h3, s', h1, h2⟩
  · rw [if_neg hv] at h
    exact absurd h (by simp)

/-- C3: `process_up_to` is idempotent.  A second call right after a completed
first call returns the unchanged store and no events; and a call whose target
is already processed is a no-op. -/
theorem c3_process_up_to_idempotent (db : DB) (maxDate : Int) (hwf : WFdb db)
    (db1 : DB) (evs : List EndReason)
    (h1 : processUpTo db maxDate = .ok (db1, evs)) :
    processUpTo db1 maxDate = .ok (db1, []) ∧
      (∀ s, getOpenStreak db = some s → maxDate ≤ s.processed_through_date →
        db1 = db ∧ evs = []) := by
  obtain ⟨hv1, hwf1, s1, hs1, hpt1⟩ := processUpTo_post hwf h1
  constructor
  · unfold processUpTo
    rw [if_pos hv1, ensureOpen_eq_of_some hs1]
    simp only []
    rw [processLoop_break hs1 hpt1]
  · intro s hs hle
    unfold processUpTo at h1
    by_cases hv : validateRuleDefs db.rule_defs = true
    · rw [if_pos hv, ensureOpen_eq_of_some hs] at h1
      simp only [] at h1
      rw [processLoop_break hs hle] at h1
      injection h1 with h1'
      exact ⟨(congrArg Prod.fst h1').symm, (congrArg Prod.snd h1').symm⟩
    · rw [if_neg hv] at h1
      exact absurd h1 (by simp)

/-- The store after a closing day: the coerced logs are persisted, the final
rule-state is written onto the streak, which is then closed and succeeded —
exactly the composition the `ended` branch of `process_up_to` performs. -/
def closeStepDB (db : DB) (s : Streak) (rsOut : List (String × RuleSt))
    (logsOut : List LogRow) (reason : EndReason) : DB :=
  closeStreakAndOpenNext
    (updateStreak { db with rule_logs := logsOut } s.streak_id
      (fun t => { t with rule_state := rsOut }))
    s.streak_id (s.processed_through_date + 1) reason

/-- C1: if on day `D = processed_through + 1 ≤ target` some applicable rule's
misses exceed its buffer, the day step closes the current streak with
status CLOSED, `end_date = D`, `processed_through_date = D`, the built
end-reason and the terminal counters persisted on the closing record, opens a
fresh OPEN streak with `start_date = D + 1`, `processed_through_date = D` and
empty rule state, and the loop continues on the new store toward the target;
the end reason carries the crossing rule's key, the day, the
misses-in-window, buffer, window and version fields. -/
theorem c1_close_and_reopen (db : DB) (maxDate : Int) (fuel : Nat) (evs : List EndReason)
    (hwf : WFdb db) (s : Streak) (hs : getOpenStreak db = some s)
    (hday : s.processed_through_date + 1 ≤ maxDate)
    (rsOut : List (String × RuleSt)) (logsOut : List LogRow) (reason : EndReason)
    (hrun : processRules s.start_date (s.processed_through_date + 1)
        (loadApplicableRules db.rule_defs (s.processed_through_date + 1))
        s.rule_state db.rule_logs = (rsOut, logsOut, some reason)) :
    processLoop (fuel + 1) db maxDate evs
        = processLoop fuel (closeStepDB db s rsOut logsOut reason) maxDate (evs ++ [reason]) ∧
    (⟨s.streak_id, s.start_date, some (s.processed_through_date + 1), .CLOSED,
        s.processed_through_date + 1, rsOut, some reason⟩ : Streak)
      ∈ (closeStepDB db s rsOut logsOut reason).streaks ∧
    getOpenStreak (closeStepDB db s rsOut logsOut reason)
      = some ⟨db.next_id, s.processed_through_date + 1 + 1, none, .OPEN,
              s.processed_through_date + 1, [], none⟩ ∧
    (∃ r ∈ loadApplicableRules db.rule_defs (s.processed_through_date + 1),
      reason = ⟨r.rule_key, s.processed_through_date + 1,
        (ruleBase s.rule_state s.start_date (s.processed_through_date + 1) r).misses + 1,
        r.buffer_misses, r.window_days, r.version⟩ ∧
      r.buffer_misses < reason.misses_in_window ∧
      mapGet rsOut r.rule_key = some
        ⟨r.version,
         calcWindowIndex s.start_date (s.processed_through_date + 1) r.window_days,
         reason.misses_in_window⟩) := by
  have hens := ensureOpen_eq_of_some hs
  have hsopen : s.status = .OPEN := (getOpenStreak_mem hs).2
  have hsmem : s ∈ db.streaks := (getOpenStreak_mem hs).1
  have hwf2 : WFdb { db with rule_logs := logsOut } := hwf
  have hs2 : getOpenStreak { db with rule_logs := logsOut } = some s := hs
  have hopen3 := getOpenStreak_updateStreak_open
    (fun t => { t with rule_state := rsOut }) hwf2 hs2 (fun t => rfl) hsopen
  have hwf3 := WFdb_updateStreak s.streak_id
    (fun t => { t with rule_state := rsOut }) hwf2 (fun t => rfl)
  refine ⟨?_, ?_, ?_, ?_⟩
  · simp only [processLoop, hens, hs, if_neg (show ¬ maxDate < s.processed_through_date + 1
      by omega), hrun]
    rfl
  · unfold closeStepDB closeStreakAndOpenNext createOpenStreakDB updateStreak
    simp only []
    refine List.mem_append_left _ ?_
    have m1 := List.mem_map_of_mem
      (fun t => if t.streak_id = s.streak_id then
        ({ t with rule_state := rsOut } : Streak) else t) hsmem
    have m2 := List.mem_map_of_mem
      (fun t => if t.streak_id = s.streak_id then
        ({ t with end_date := some (s.processed_through_date + 1), status := .CLOSED,
                  processed_through_date := s.processed_through_date + 1,
                  end_reason := some reason } : Streak) else t) m1
    simpa using m2
  · exact getOpenStreak_close hwf3 hopen3 (s.processed_through_date + 1) reason
  · obtain ⟨pre, rr, post, hsplit, hpre, hwr, hreason, hmap, hlog, hlogPre, hlogOther⟩ :=
      processRules_some_inv _ _ _ _ _ _
        (loadApplicable_keys_nodup db.rule_defs (s.processed_through_date + 1)) hrun
    refine ⟨rr, ?_, ?_, ?_, ?_⟩
    · rw [hsplit]
      exact List.mem_append_right pre (List.mem_cons_self rr post)
    · rw [hreason]
      rfl
    · rw [hreason]
      exact hwr.2
    · rw [hreason]
      exact hmap

theorem ruleFinal_widx (rs : List (String × RuleSt)) (logs : List LogRow)
    (sStart d : Int) (r : RuleDef) :
    (ruleFinal rs logs sStart d r).widx = calcWindowIndex sStart d r.window_days := by
  unfold ruleFinal
  by_cases h : effState logs d r.rule_key = .MISS <;> simp [h, ruleBase_widx]

theorem ruleFinal_ver (rs : List (String × RuleSt)) (logs : List LogRow)
    (sStart d : Int) (r : RuleDef) :
    (ruleFinal rs logs sStart d r).ver = r.version := by
  unfold ruleFinal
  by_cases h : effState logs d r.rule_key = .MISS <;> simp [h, ruleBase_ver]

theorem ruleFinal_misses (rs : List (String × RuleSt)) (logs : List LogRow)
    (sStart d : Int) (r : RuleDef) :
    (ruleFinal rs logs sStart d r).misses =
      (match mapGet rs r.rule_key with
       | none => 0
       | some stOld =>
         if stOld.widx = calcWindowIndex sStart d r.window_days then stOld.misses else 0)
      + (if effState logs d r.rule_key = .MISS then 1 else 0) := by
  unfold ruleFinal ruleBase
  by_cases h : effState logs d r.rule_key = .MISS <;>
    cases hm : mapGet rs r.rule_key <;> simp [h, hm]

/-- C2 (amended): on a day step that does not end the streak, every loaded
applicable rule's persisted log state ends up non-UNKNOWN, and a log already
known is not rewritten (the coercion happens only from UNKNOWN); on a day
step that ends the streak, the crossing rule and every rule before it in
ascending-key load order are coerced (later rules are not touched). -/
theorem c2_unknown_coerced_amended (defs : List RuleDef) (sStart d : Int)
    (rs : List (String × RuleSt)) (logs : List LogRow) :
    (∀ rsOut logsOut,
      processRules sStart d (loadApplicableRules defs d) rs logs = (rsOut, logsOut, none) →
      ∀ r ∈ loadApplicableRules defs d,
        getLogState logsOut d r.rule_key ≠ .UNKNOWN ∧
        (getLogState logs d r.rule_key ≠ .UNKNOWN →
          getLogState logsOut d r.rule_key = getLogState logs d r.rule_key)) ∧
    (∀ rsOut logsOut reason,
      processRules sStart d (loadApplicableRules defs d) rs logs
        = (rsOut, logsOut, some reason) →
      ∃ pre rr post, loadApplicableRules defs d = pre ++ rr :: post ∧
        reason.rule_key = rr.rule_key ∧
        getLogState logsOut d rr.rule_key ≠ .UNKNOWN ∧
        ∀ p ∈ pre, getLogState logsOut d p.rule_key ≠ .UNKNOWN) := by
  constructor
  · intro rsOut logsOut hrun r hr
    obtain ⟨-, -, -, P4, -⟩ := processRules_none_inv _ _ _ _ _
      (loadApplicable_keys_nodup defs d) hrun
    refine ⟨?_, ?_⟩
    · rw [P4 r hr]
      exact effState_ne_unknown logs d r.rule_key
    · intro hknown
      rw [P4 r hr]
      exact effState_of_known logs d r.rule_key hknown
  · intro rsOut logsOut reason hrun
    obtain ⟨pre, rr, post, hsplit, -, -, hreason, -, hlog, hlogPre, -⟩ :=
      processRules_some_inv _ _ _ _ _ _ (loadApplicable_keys_nodup defs d) hrun
    refine ⟨pre, rr, post, hsplit, by rw [hreason]; rfl, ?_, ?_⟩
    · rw [hlog]
      exact effState_ne_unknown logs d rr.rule_key
    · intro p hp
      rw [hlogPre p hp]
      exact effState_ne_unknown logs d p.rule_key

/-- C4: a rule's misses-in-window counter after a processed day: it restarts
from 0 exactly when there were no stored counters or the stored window index
differs from the computed one, and then counts the day's MISS; the formula
does not consult the stored version, so a version change alone never resets,
and a window-index change always does. -/
theorem c4_window_reset (defs : List RuleDef) (sStart d : Int)
    (rs : List (String × RuleSt)) (logs : List LogRow)
    (rsOut : List (String × RuleSt)) (logsOut : List LogRow) (r : RuleDef)
    (hr : r ∈ loadApplicableRules defs d)
    (hrun : processRules sStart d (loadApplicableRules defs d) rs logs
      = (rsOut, logsOut, none)) :
    ∃ stNew, mapGet rsOut r.rule_key = some stNew ∧
      stNew.widx = calcWindowIndex sStart d r.window_days ∧
      stNew.ver = r.version ∧
      stNew.misses =
        (match mapGet rs r.rule_key with
         | none => 0
         | some stOld =>
           if stOld.widx = calcWindowIndex sStart d r.window_days then stOld.misses else 0)
        + (if effState logs d r.rule_key = .MISS then 1 else 0) := by
  obtain ⟨-, P2, -, -, -⟩ := processRules_none_inv _ _ _ _ _
    (loadApplicable_keys_nodup defs d) hrun
  exact ⟨ruleFinal rs logs sStart d r, P2 r hr,
    ruleFinal_widx rs logs sStart d r, ruleFinal_ver rs logs sStart d r,
    ruleFinal_misses rs logs sStart d r⟩

/-- C5: when at least two loaded applicable rules would cross their buffers on
the same day, the day step ends the streak with exactly one reason, the one
built from the rule with the lexicographically smallest key among those
crossing. -/
theorem c5_deterministic_tiebreak (defs : List RuleDef) (sStart d : Int)
    (rs : List (String × RuleSt)) (logs : List LogRow)
    (h2 : 2 ≤ ((loadApplicableRules defs d).filter
        (fun r => decide (wouldEnd rs logs sStart d r))).length) :
    ∃ rsOut logsOut reason,
      processRules sStart d (loadApplicableRules defs d) rs logs
        = (rsOut, logsOut, some reason) ∧
      (∃ r ∈ loadApplicableRules defs d, wouldEnd rs logs sStart d r ∧
        reason = mkReason rs sStart d r) ∧
      (∀ r ∈ loadApplicableRules defs d, wouldEnd rs logs sStart d r →
        strLe reason.rule_key r.rule_key) := by
  have hpos : 0 < ((loadApplicableRules defs d).filter
      (fun r => decide (wouldEnd rs logs sStart d r))).length := by omega
  obtain ⟨x, hx⟩ := List.exists_mem_of_length_pos hpos
  have hx' := List.mem_filter.mp hx
  have hex : ∃ r ∈ loadApplicableRules defs d, wouldEnd rs logs sStart d r :=
    ⟨x, hx'.1, of_decide_eq_true hx'.2⟩
  obtain ⟨rsOut, logsOut, reason, hrun⟩ := processRules_some_of_exists _ _ _
    (loadApplicable_keys_nodup defs d) hex
  obtain ⟨pre, rr, post, hsplit, hpre, hwr, hreason, -, -, -, -⟩ :=
    processRules_some_inv _ _ _ _ _ _ (loadApplicable_keys_nodup defs d) hrun
  refine ⟨rsOut, logsOut, reason, hrun, ⟨rr, ?_, hwr, hreason⟩, ?_⟩
  · rw [hsplit]
    exact List.mem_append_right pre (List.mem_cons_self rr post)
  · intro r hrm hwrr
    have hpw := loadApplicable_pairwise_lt defs d
    rw [hsplit] at hpw hrm
    rw [List.pairwise_append] at hpw
    rcases List.mem_append.mp hrm with hIn | hIn
    · exact absurd hwrr (hpre r hIn)
    · rcases List.mem_cons.mp hIn with hEq | hIn
      · subst hEq
        rw [hreason]
        exact Or.inl rfl
      · have hlt : strLt rr.rule_key r.rule_key :=
          (List.pairwise_cons.mp hpw.2.1).1 r hIn
        rw [hreason]
        exact Or.inr hlt

/-! ## Concrete fixtures and witnesses for the streak-machine claims -/

def c1A : RuleDef := ⟨"a", 1, 0, none, "", "", 7, 0, 1⟩
def c1Z : RuleDef := ⟨"z", 1, 0, none, "", "", 7, 5, 1⟩
def c1DB : DB := ⟨0, [c1A, c1Z], [], [⟨0, 0, none, .OPEN, -1, [], none⟩], 1⟩
def c1s : Streak := ⟨0, 0, none, .OPEN, -1, [], none⟩
def c1rs : List (String × RuleSt) := [("a", ⟨1, 0, 1⟩)]
def c1logs : List LogRow := [⟨0, "a", .MISS⟩]
def c1reason : EndReason := ⟨"a", 0, 1, 0, 7, 1⟩

theorem c1_witness :
    c1s.processed_through_date + 1 ≤ 0 ∧
    getOpenStreak (closeStepDB c1DB c1s c1rs c1logs c1reason)
      = some ⟨1, 1, none, .OPEN, 0, [], none⟩ :=
  ⟨by decide,
   (c1_close_and_reopen c1DB 0 0 [] (by decide) c1s (by decide) (by decide)
      c1rs c1logs c1reason (by decide)).2.2.1⟩

def c2xA : RuleDef := ⟨"a", 1, 0, none, "", "", 7, 0, 1⟩
def c2xZ : RuleDef := ⟨"z", 1, 0, none, "", "", 7, 5, 1⟩
def c2xDB : DB := ⟨0, [c2xA, c2xZ], [], [⟨0, 0, none, .OPEN, -1, [], none⟩], 1⟩
def c2xAfter : DB := ⟨0, [c2xA, c2xZ], [⟨0, "a", .MISS⟩],
  [⟨0, 0, some 0, .CLOSED, 0, [("a", ⟨1, 0, 1⟩)], some ⟨"a", 0, 1, 0, 7, 1⟩⟩,
   ⟨1, 1, none, .OPEN, 0, [], none⟩], 2⟩

/-- C2 counterexample to the claim as stated: running `process_up_to` through
day 0 closes the streak on day 0 (rule "a" crosses a zero buffer), so day 0
is finalized — the closed streak covering it has
`processed_through_date = 0` — and rule "z" is applicable on day 0, yet the
persisted log state for `(0, "z")` is still UNKNOWN: the loop broke before
reaching "z". -/
theorem c2_counterexample :
    processUpTo c2xDB 0 = .ok (c2xAfter, [⟨"a", 0, 1, 0, 7, 1⟩]) ∧
    appliesOn c2xZ 0 = true ∧
    getLogState c2xAfter.rule_logs 0 "z" = .UNKNOWN :=
  ⟨by decide, by decide, by decide⟩

def c2wA : RuleDef := ⟨"a", 1, 0, none, "", "", 7, 1, 1⟩
def c2wdefs : List RuleDef := [c2wA]
def c2wlogs : List LogRow := [⟨0, "a", .PASS⟩]
def c2wrs : List (String × RuleSt) := [("a", ⟨1, 0, 0⟩)]

theorem c2_witness :
    processRules 0 0 (loadApplicableRules c2wdefs 0) [] c2wlogs
      = (c2wrs, c2wlogs, none) ∧
    getLogState c2wlogs 0 c2wA.rule_key ≠ .UNKNOWN :=
  have h : processRules 0 0 (loadApplicableRules c2wdefs 0) [] c2wlogs
      = (c2wrs, c2wlogs, none) := by decide
  ⟨h, ((c2_unknown_coerced_amended c2wdefs 0 0 [] c2wlogs).1 c2wrs c2wlogs h
      c2wA (by decide)).1⟩

def c3A : RuleDef := ⟨"a", 1, 0, none, "", "", 7, 1, 1⟩
def c3DB : DB := ⟨0, [c3A], [⟨0, "a", .PASS⟩], [⟨0, 0, none, .OPEN, -1, [], none⟩], 1⟩
def c3DB1 : DB := ⟨0, [c3A], [⟨0, "a", .PASS⟩],
  [⟨0, 0, none, .OPEN, 0, [("a", ⟨1, 0, 0⟩)], none⟩], 1⟩

theorem c3_witness :
    WFdb c3DB ∧ processUpTo c3DB 0 = .ok (c3DB1, []) ∧
    processUpTo c3DB1 0 = .ok (c3DB1, []) :=
  have hwf : WFdb c3DB := by decide
  have h1 : processUpTo c3DB 0 = .ok (c3DB1, []) := by decide
  ⟨hwf, h1, (c3_process_up_to_idempotent c3DB 0 hwf c3DB1 [] h1).1⟩

def c4A : RuleDef := ⟨"a", 1, 0, none, "", "", 7, 1, 1⟩
def c4rsIn : List (String × RuleSt) := [("a", ⟨1, 0, 1⟩)]
def c4rsOut : List (String × RuleSt) := [("a", ⟨1, 1, 1⟩)]
def c4logsOut : List LogRow := [⟨12, "a", .MISS⟩]

theorem c4_witness :
    processRules 5 12 (loadApplicableRules [c4A] 12) c4rsIn []
      = (c4rsOut, c4logsOut, none) ∧
    (∃ stNew, mapGet c4rsOut c4A.rule_key = some stNew ∧
      stNew.widx = calcWindowIndex 5 12 c4A.window_days ∧
      stNew.ver = c4A.version ∧
      stNew.misses =
        (match mapGet c4rsIn c4A.rule_key with
         | none => 0
         | some stOld =>
           if stOld.widx = calcWindowIndex 5 12 c4A.window_days then stOld.misses else 0)
        + (if effState [] 12 c4A.rule_key = .MISS then 1 else 0)) :=
  have h : processRules 5 12 (loadApplicableRules [c4A] 12) c4rsIn []
      = (c4rsOut, c4logsOut, none) := by decide
  ⟨h, c4_window_reset [c4A] 5 12 c4rsIn [] c4rsOut c4logsOut c4A (by decide) h⟩

def c5A : RuleDef := ⟨"a", 1, 0, none, "", "", 7, 0, 1⟩
def c5B : RuleDef := ⟨"b", 1, 0, none, "", "", 7, 0, 1⟩
def c5defs : List RuleDef := [c5B, c5A]

theorem c5_witness :
    2 ≤ ((loadApplicableRules c5defs 0).filter
        (fun r => decide (wouldEnd [] [] 0 0 r))).length ∧
    (∃ rsOut logsOut reason,
      processRules 0 0 (loadApplicableRules c5defs 0) [] []
        = (rsOut, logsOut, some reason) ∧
      (∃ r ∈ loadApplicableRules c5defs 0, wouldEnd [] [] 0 0 r ∧
        reason = mkReason [] 0 0 r) ∧
      (∀ r ∈ loadApplicableRules c5defs 0, wouldEnd [] [] 0 0 r →
        strLe reason.rule_key r.rule_key)) :=
  ⟨by decide, c5_deterministic_tiebreak c5defs 0 0 [] [] (by decide)⟩

/-! ## Lemmas: catalog validation (C9) -/

/-- Spec-side: a version span is malformed (`effective_to < effective_from`). -/
def malformedSpan (r : RuleDef) : Prop :=
  ∃ b, r.effective_to = some b ∧ b < r.effective_from

/-- Spec-side: two inclusive version spans intersect — some day lies in both
(an open-ended `effective_to` is unbounded). -/
def spansIntersect (r r' : RuleDef) : Prop :=
  ∃ day : Int, appliesOn r day = true ∧ appliesOn r' day = true

theorem spansIntersect_symm {r r' : RuleDef} (h : spansIntersect r r') :
    spansIntersect r' r := by
  obtain ⟨d, h1, h2⟩ := h
  exact ⟨d, h2, h1⟩

theorem strLt_irrefl (a : String) : ¬ strLt a a :=
  lt_irrefl a.data

theorem badRange_iff (r : RuleDef) : badRange r = true ↔ malformedSpan r := by
  unfold badRange malformedSpan
  cases h : r.effective_to <;> simp [h]

theorem appliesOn_iff (r : RuleDef) (d : Int) :
    appliesOn r d = true ↔
      (r.effective_from ≤ d ∧ ∀ b, r.effective_to = some b → d ≤ b) := by
  unfold appliesOn
  cases h : r.effective_to <;> simp [h]

theorem endCovers_true_iff (e : Option Int) (a : Int) :
    endCovers e a = true ↔ ∀ b, e = some b → a ≤ b := by
  cases e <;> simp [endCovers]

theorem endCovers_false_iff (e : Option Int) (a : Int) :
    endCovers e a = false ↔ ∃ b, e = some b ∧ b < a := by
  cases e <;> simp [endCovers]

theorem spansIntersect_iff {r r' : RuleDef} (hr : ¬ malformedSpan r)
    (hr' : ¬ malformedSpan r') :
    spansIntersect r r' ↔
      (endCovers r.effective_to r'.effective_from = true ∧
       endCovers r'.effective_to r.effective_from = true) := by
  constructor
  · rintro ⟨d, h1, h2⟩
    rw [appliesOn_iff] at h1 h2
    constructor
    · rw [endCovers_true_iff]
      intro b hb
      exact le_trans h2.1 (h1.2 b hb)
    · rw [endCovers_true_iff]
      intro b hb
      exact le_trans h1.1 (h2.2 b hb)
  · rintro ⟨h1, h2⟩
    rw [endCovers_true_iff] at h1 h2
    refine ⟨max r.effective_from r'.effective_from, ?_, ?_⟩
    · rw [appliesOn_iff]
      refine ⟨le_max_left _ _, ?_⟩
      intro b hb
      refine max_le ?_ (h1 b hb)
      by_contra hlt
      exact hr ⟨b, hb, by omega⟩
    · rw [appliesOn_iff]
      refine ⟨le_max_right _ _, ?_⟩
      intro b hb
      refine max_le (h2 b hb) ?_
      by_contra hlt
      exact hr' ⟨b, hb, by omega⟩

theorem overlapScan_cons₂ (a b : RuleDef) (rest : List RuleDef) :
    overlapScan (a :: b :: rest)
      = (endCovers a.effective_to b.effective_from || overlapScan (b :: rest)) := rfl

/-- Over spans sorted by `effective_from` with well-formed ranges, the
consecutive-pair scan detects exactly the pairwise intersections. -/
theorem overlapScan_false_iff : ∀ (l : List RuleDef),
    l.Pairwise (fun a b => a.effective_from ≤ b.effective_from) →
    (∀ r ∈ l, ¬ malformedSpan r) →
    (overlapScan l = false ↔ l.Pairwise (fun a b => ¬ spansIntersect a b))
  | [], _, _ => by simp [overlapScan]
  | [x], _, _ => by simp [overlapScan]
  | a :: b :: rest, hsort, hwf => by
    have hsort' := List.pairwise_cons.mp hsort
    have ih := overlapScan_false_iff (b :: rest) hsort'.2
      (fun r hr => hwf r (List.mem_cons_of_mem a hr))
    rw [overlapScan_cons₂, Bool.or_eq_false_iff, ih]
    constructor
    · rintro ⟨hab, htail⟩
      rw [List.pairwise_cons]
      refine ⟨?_, htail⟩
      intro y hy hint
      rw [endCovers_false_iff] at hab
      obtain ⟨bb, hbb, hlt⟩ := hab
      obtain ⟨d, h1, h2⟩ := hint
      rw [appliesOn_iff] at h1 h2
      have hdb : d ≤ bb := h1.2 bb hbb
      have hyfrom : b.effective_from ≤ y.effective_from := by
        rcases List.mem_cons.mp hy with rfl | hy'
        · exact le_refl _
        · exact (List.pairwise_cons.mp hsort'.2).1 y hy'
      have := h2.1
      omega
    · rintro hpw
      rw [List.pairwise_cons] at hpw
      refine ⟨?_, hpw.2⟩
      have hnab := hpw.1 b (List.mem_cons_self b rest)
      have hws : endCovers b.effective_to a.effective_from = true := by
        rw [endCovers_true_iff]
        intro c hc
        have hbc : b.effective_from ≤ c := by
          by_contra hcon
          exact (hwf b (List.mem_cons_of_mem a (List.mem_cons_self b rest)))
            ⟨c, hc, by omega⟩
        have hafrom : a.effective_from ≤ b.effective_from :=
          hsort'.1 b (List.mem_cons_self b rest)
        omega
      rcases Bool.eq_false_or_eq_true (endCovers a.effective_to b.effective_from) with
        h | h
      · exact absurd ((spansIntersect_iff
          (hwf a (List.mem_cons_self a (b :: rest)))
          (hwf b (List.mem_cons_of_mem a (List.mem_cons_self b rest)))).mpr ⟨h, hws⟩)
          hnab
      · exact h

theorem firstKeys_mem : ∀ (l : List String) (x : String), x ∈ firstKeys l ↔ x ∈ l := by
  intro l
  induction l with
  | nil => intro x; simp [firstKeys]
  | cons k rest ih =>
    intro x
    simp only [firstKeys, List.mem_cons, List.mem_filter]
    constructor
    · rintro (rfl | ⟨hx, -⟩)
      · exact Or.inl rfl
      · exact Or.inr ((ih x).mp hx)
    · rintro (rfl | hx)
      · exact Or.inl rfl
      · by_cases hk : x = k
        · exact Or.inl hk
        · exact Or.inr ⟨(ih x).mpr hx, by simpa using hk⟩

/-- Within one key, the sorted rows' spans come in `effective_from` order. -/
theorem filter_key_sorted (defs : List RuleDef) (k : String) :
    ((List.insertionSort keyEffLe defs).filter
        (fun r => decide (r.rule_key = k))).Pairwise
      (fun a b => a.effective_from ≤ b.effective_from) := by
  have hs := List.sorted_insertionSort keyEffLe defs
  have hpw : ((List.insertionSort keyEffLe defs).filter
      (fun r => decide (r.rule_key = k))).Pairwise keyEffLe :=
    List.Pairwise.sublist (List.filter_sublist _) hs
  refine hpw.imp_of_mem ?_
  intro a b ha hb hab
  have hak : a.rule_key = k := by
    have := (List.mem_filter.mp ha).2
    simpa using this
  have hbk : b.rule_key = k := by
    have := (List.mem_filter.mp hb).2
    simpa using this
  rcases hab with h | ⟨-, he⟩
  · rw [hak, hbk] at h
    exact absurd h (strLt_irrefl k)
  · exact he

theorem validate_false_iff (defs : List RuleDef) :
    validateRuleDefs defs = false ↔
      ((List.insertionSort keyEffLe defs).any badRange = true ∨
       ∃ g ∈ groupByKey (List.insertionSort keyEffLe defs), overlapScan g.2 = true) := by
  unfold validateRuleDefs
  cases hany : (List.insertionSort keyEffLe defs).any badRange with
  | true => simp [hany]
  | false =>
    constructor
    · intro h
      right
      have h2 : (groupByKey (List.insertionSort keyEffLe defs)).all
          (fun g => !overlapScan g.2) = false := by
        revert h
        simp [hany]
      obtain ⟨g, hg, hsc⟩ := List.all_eq_false.mp h2
      refine ⟨g, hg, ?_⟩
      revert hsc
      cases overlapScan g.2 <;> simp
    · rintro (habs | ⟨g, hg, hsc⟩)
      · exact absurd habs (by simp)
      · simp only [hany, Bool.not_false, Bool.true_and]
        exact List.all_eq_false.mpr ⟨g, hg, by simp [hsc]⟩

/-- Characterization of the validation scan and of the entry points it
gates, shared by the validation claims and the aggregate-reader proofs. -/
theorem validate_gate_char (defs : List RuleDef)
    (hpk : (defs.map (fun r => (r.rule_key, r.version))).Nodup) :
    (validateRuleDefs defs = false ↔
      ((∃ r ∈ defs, malformedSpan r) ∨
       (∃ r ∈ defs, ∃ r' ∈ defs, r ≠ r' ∧ r.rule_key = r'.rule_key ∧
         spansIntersect r r'))) ∧
    (validateRuleDefs defs = false → ∀ db : DB, db.rule_defs = defs →
      (∀ maxDate, processUpTo db maxDate = .error .configurationError) ∧
      (∀ endDate w, computeDisciplineIndex db endDate w = .error .configurationError) ∧
      (∀ endDate pd w1 w2,
        computeDiTimeseries db endDate pd w1 w2 = .error .configurationError)) := by
  have hperm : (List.insertionSort keyEffLe defs).Perm defs :=
    List.perm_insertionSort keyEffLe defs
  have hndDefs : defs.Nodup := List.Nodup.of_map _ hpk
  have hndRows : (List.insertionSort keyEffLe defs).Nodup := hperm.nodup_iff.mpr hndDefs
  constructor
  · constructor
    · intro hval
      rcases (validate_false_iff defs).mp hval with hany | ⟨g, hg, hscan⟩
      · left
        obtain ⟨r, hr, hbr⟩ := List.any_eq_true.mp hany
        exact ⟨r, hperm.mem_iff.mp hr, (badRange_iff r).mp hbr⟩
      · by_cases hmal : ∃ r ∈ defs, malformedSpan r
        · exact Or.inl hmal
        · right
          push_neg at hmal
          obtain ⟨k, hk, hgeq⟩ := List.mem_map.mp hg
          have hg2 : g.2 = (List.insertionSort keyEffLe defs).filter
              (fun r => decide (r.rule_key = k)) := by
            rw [← hgeq]
          rw [hg2] at hscan
          have hsorted := filter_key_sorted defs k
          have hwfl : ∀ r ∈ (List.insertionSort keyEffLe defs).filter
              (fun r => decide (r.rule_key = k)), ¬ malformedSpan r :=
            fun r hr => hmal r (hperm.mem_iff.mp (List.mem_filter.mp hr).1)
          have hnp : ¬ ((List.insertionSort keyEffLe defs).filter
              (fun r => decide (r.rule_key = k))).Pairwise
                (fun a b => ¬ spansIntersect a b) := by
            intro hp
            rw [← overlapScan_false_iff _ hsorted hwfl] at hp
            rw [hp] at hscan
            exact absurd hscan (by simp)
          rw [List.pairwise_iff_get] at hnp
          push_neg at hnp
          obtain ⟨i, j, hij, hint⟩ := hnp
          have hsubfl : ((List.insertionSort keyEffLe defs).filter
              (fun r => decide (r.rule_key = k))).Sublist
              (List.insertionSort keyEffLe defs) := List.filter_sublist _
          have hndfl := hsubfl.nodup hndRows
          have hne2 : ((List.insertionSort keyEffLe defs).filter
                (fun r => decide (r.rule_key = k))).get i ≠
              ((List.insertionSort keyEffLe defs).filter
                (fun r => decide (r.rule_key = k))).get j := by
            intro hc
            have h3 := hndfl.get_inj_iff.mp hc
            exact absurd h3 (Fin.ne_of_lt hij)
          have hik : (((List.insertionSort keyEffLe defs).filter
              (fun r => decide (r.rule_key = k))).get i).rule_key = k := by
            have := (List.mem_filter.mp (List.get_mem _ i.1 i.2)).2
            simpa using this
          have hjk : (((List.insertionSort keyEffLe defs).filter
              (fun r => decide (r.rule_key = k))).get j).rule_key = k := by
            have := (List.mem_filter.mp (List.get_mem _ j.1 j.2)).2
            simpa using this
          refine ⟨_, hperm.mem_iff.mp
              (List.mem_filter.mp (List.get_mem _ i.1 i.2)).1,
            _, hperm.mem_iff.mp
              (List.mem_filter.mp (List.get_mem _ j.1 j.2)).1, hne2, ?_, hint⟩
          rw [hik, hjk]
    · rintro (⟨r, hr, hmal⟩ | ⟨r, hr, r', hr', hne, hkey, hint⟩)
      · apply (validate_false_iff defs).mpr
        left
        exact List.any_eq_true.mpr
          ⟨r, hperm.mem_iff.mpr hr, (badRange_iff r).mpr hmal⟩
      · by_cases hmal2 : ∃ q ∈ defs, malformedSpan q
        · apply (validate_false_iff defs).mpr
          left
          obtain ⟨q, hq, hmq⟩ := hmal2
          exact List.any_eq_true.mpr
            ⟨q, hperm.mem_iff.mpr hq, (badRange_iff q).mpr hmq⟩
        · apply (validate_false_iff defs).mpr
          right
          push_neg at hmal2
          have hkmem : r.rule_key ∈ firstKeys
              ((List.insertionSort keyEffLe defs).map (·.rule_key)) :=
            (firstKeys_mem _ _).mpr
              (List.mem_map_of_mem _ (hperm.mem_iff.mpr hr))
          refine ⟨(r.rule_key, (List.insertionSort keyEffLe defs).filter
              (fun q => decide (q.rule_key = r.rule_key))),
            List.mem_map.mpr ⟨r.rule_key, hkmem, rfl⟩, ?_⟩
          have hsorted := filter_key_sorted defs r.rule_key
          have hwfl : ∀ q ∈ (List.insertionSort keyEffLe defs).filter
              (fun q => decide (q.rule_key = r.rule_key)), ¬ malformedSpan q :=
            fun q hq => hmal2 q (hperm.mem_iff.mp (List.mem_filter.mp hq).1)
          have hrfl : r ∈ (List.insertionSort keyEffLe defs).filter
              (fun q => decide (q.rule_key = r.rule_key)) :=
            List.mem_filter.mpr ⟨hperm.mem_iff.mpr hr, by simp⟩
          have hr'fl : r' ∈ (List.insertionSort keyEffLe defs).filter
              (fun q => decide (q.rule_key = r.rule_key)) :=
            List.mem_filter.mpr ⟨hperm.mem_iff.mpr hr', by simp [hkey.symm]⟩
          rcases Bool.eq_false_or_eq_true (overlapScan
              ((List.insertionSort keyEffLe defs).filter
                (fun q => decide (q.rule_key = r.rule_key)))) with htrue | hfalse
          · exact htrue
          · exfalso
            have hpw := (overlapScan_false_iff _ hsorted hwfl).mp hfalse
            rw [List.pairwise_iff_get] at hpw
            obtain ⟨i, hi⟩ := List.mem_iff_get.mp hrfl
            obtain ⟨j, hj⟩ := List.mem_iff_get.mp hr'fl
            have hij : i ≠ j := by
              intro hc
              exact hne (by rw [← hi, ← hj, hc])
            rcases lt_or_gt_of_ne hij with h | h
            · exact (hpw i j h) (by rw [hi, hj]; exact hint)
            · exact (hpw j i h) (by rw [hi, hj]; exact spansIntersect_symm hint)
  · intro hval db hdb
    refine ⟨?_, ?_, ?_⟩
    · intro maxDate
      unfold processUpTo
      rw [hdb, if_neg (by simp [hval])]
    · intro endDate w
      unfold computeDisciplineIndex
      rw [hdb, if_neg (by simp [hval])]
    · intro endDate pd w1 w2
      unfold computeDiTimeseries
      rw [hdb, if_neg (by simp [hval])]

/-- C9 (amended): the validation fails exactly when some version has
`effective_to < effective_from` or two distinct versions of the same key have
intersecting inclusive ranges (given the table's `(rule_key, version)`
primary key); and a failing validation blocks `process_up_to`,
`compute_discipline_index` and `compute_di_timeseries` with a
ConfigurationError before any date-dependent computation.  (The admin
operations do not invoke it — see the counterexample.) -/
theorem c9_validate_gate (defs : List RuleDef)
    (hpk : (defs.map (fun r => (r.rule_key, r.version))).Nodup) :
    (validateRuleDefs defs = false ↔
      ((∃ r ∈ defs, malformedSpan r) ∨
       (∃ r ∈ defs, ∃ r' ∈ defs, r ≠ r' ∧ r.rule_key = r'.rule_key ∧
         spansIntersect r r'))) ∧
    (validateRuleDefs defs = false → ∀ db : DB, db.rule_defs = defs →
      (∀ maxDate, processUpTo db maxDate = .error .configurationError) ∧
      (∀ endDate w, computeDisciplineIndex db endDate w = .error .configurationError) ∧
      (∀ endDate pd w1 w2,
        computeDiTimeseries db endDate pd w1 w2 = .error .configurationError)) :=
  validate_gate_char defs hpk

instance (r : RuleDef) : Decidable (malformedSpan r) :=
  match h : r.effective_to with
  | none => isFalse (fun ⟨_, hb, _⟩ => by rw [h] at hb; cases hb)
  | some b =>
    if hlt : b < r.effective_from then isTrue ⟨b, h, hlt⟩
    else isFalse (fun ⟨b', hb', hlt'⟩ => by
      rw [h] at hb'
      injection hb' with he
      exact hlt (he ▸ hlt'))

def c9xDefs : List RuleDef :=
  [⟨"a", 1, 0, none, "", "", 7, 1, 1⟩, ⟨"a", 2, 5, none, "", "", 7, 1, 1⟩]

def c9xDB : DB := ⟨0, c9xDefs, [], [], 0⟩

/-- C9 counterexample to "invoked in every engine entry point": with two
overlapping versions of key "a" in the catalog (validation fails), the admin
add-version entry point still succeeds — it never runs the catalog
validation. -/
theorem c9_counterexample :
    validateRuleDefs c9xDB.rule_defs = false ∧
    (adminAddNewVersion c9xDB 10 "a" "" "" 7 1 1).2
      = .ok ⟨"a", 3, 11, none, "", "", 7, 1, 1⟩ :=
  ⟨by decide, by decide⟩

theorem c9_witness :
    (c9xDefs.map (fun r => (r.rule_key, r.version))).Nodup ∧
    validateRuleDefs c9xDefs = false ∧
    (∃ r ∈ c9xDefs, ∃ r' ∈ c9xDefs, r ≠ r' ∧ r.rule_key = r'.rule_key ∧
      spansIntersect r r') ∧
    processUpTo c9xDB 3 = .error .configurationError :=
  have hpk : (c9xDefs.map (fun r => (r.rule_key, r.version))).Nodup := by decide
  have hval : validateRuleDefs c9xDefs = false := by decide
  ⟨hpk, hval,
   ((c9_validate_gate c9xDefs hpk).1.mp hval).resolve_left
     (by decide : ¬ ∃ r ∈ c9xDefs, malformedSpan r),
   ((c9_validate_gate c9xDefs hpk).2 hval c9xDB rfl).1 3⟩

/-! ## Lemmas: admin add-version (C8) -/

theorem adminGetVersionApplicableOn_mem {defs : List RuleDef} {k : String} {d : Int}
    {cur : RuleDef} (h : adminGetVersionApplicableOn defs k d = some cur) :
    cur ∈ defs ∧ cur.rule_key = k := by
  unfold adminGetVersionApplicableOn at h
  have hmem := List.mem_of_find?_eq_some h
  have hmem2 : cur ∈ defs.filter (fun r => decide (r.rule_key = k ∧ r.effective_from ≤ d)) :=
    (List.perm_insertionSort effDescLe _).mem_iff.mp hmem
  have hf := List.mem_filter.mp hmem2
  refine ⟨hf.1, ?_⟩
  have := hf.2
  simp only [decide_eq_true_eq] at this
  exact this.1

/-- C8: adding a rule version always schedules the new row for tomorrow
(`effective_from = today + 1`, never today) and closes the version applicable
today by setting its `effective_to` to today; if a version is already
scheduled for tomorrow, or any version of the key sits beyond tomorrow, the
call fails with a ValidationError and the store is returned unchanged. -/
theorem c8_admin_add_version (db : DB) (today : Int) (k nm descr : String)
    (wd bm : Int) (wt : ℚ) :
    (((∃ r ∈ db.rule_defs, r.rule_key = k ∧ r.effective_from = today + 1) ∨
      (∃ r ∈ db.rule_defs, r.rule_key = k ∧ today + 1 < r.effective_from)) →
      adminAddNewVersion db today k nm descr wd bm wt = (db, .error .validationError)) ∧
    (∀ db' row, adminAddNewVersion db today k nm descr wd bm wt = (db', .ok row) →
      row.effective_from = today + 1 ∧ row.effective_from ≠ today ∧
      row.effective_to = none ∧ row ∈ db'.rule_defs ∧
      (∀ cur, adminGetVersionApplicableOn db.rule_defs k today = some cur →
        ∃ r' ∈ db'.rule_defs, r'.rule_key = k ∧ r'.version = cur.version ∧
          r'.effective_to = some today)) := by
  constructor
  · intro hcond
    have hb1 : db.rule_defs.any (fun r => decide (r.rule_key = k)) = true := by
      apply List.any_eq_true.mpr
      rcases hcond with ⟨r, hr, hk, -⟩ | ⟨r, hr, hk, -⟩ <;>
        exact ⟨r, hr, by simp [hk]⟩
    unfold adminAddNewVersion
    rw [if_neg (by simp [hb1])]
    by_cases hb2 : db.rule_defs.any
        (fun r => decide (r.rule_key = k ∧ today + 1 < r.effective_from)) = true
    · rw [if_pos hb2]
    · rw [if_neg hb2]
      have hb3 : db.rule_defs.any
          (fun r => decide (r.rule_key = k ∧ r.effective_from = today + 1)) = true := by
        apply List.any_eq_true.mpr
        rcases hcond with ⟨r, hr, hk, he⟩ | ⟨r, hr, hk, he⟩
        · exact ⟨r, hr, by simp [hk, he]⟩
        · exact absurd (List.any_eq_true.mpr ⟨r, hr, by simp [hk, he]⟩) hb2
      rw [if_pos hb3]
  · intro db' row heq
    unfold adminAddNewVersion at heq
    by_cases hb1 : db.rule_defs.any (fun r => decide (r.rule_key = k)) = true
    · rw [if_neg (by simp [hb1])] at heq
      by_cases hb2 : db.rule_defs.any
          (fun r => decide (r.rule_key = k ∧ today + 1 < r.effective_from)) = true
      · rw [if_pos hb2] at heq
        exact absurd (congrArg (fun p => p.2) heq) (by simp)
      · rw [if_neg hb2] at heq
        by_cases hb3 : db.rule_defs.any
            (fun r => decide (r.rule_key = k ∧ r.effective_from = today + 1)) = true
        · rw [if_pos hb3] at heq
          exact absurd (congrArg (fun p => p.2) heq) (by simp)
        · rw [if_neg hb3] at heq
          simp only [Prod.mk.injEq] at heq
          obtain ⟨hdb', hok⟩ := heq
          injection hok with hrow
          refine ⟨by rw [← hrow], by rw [← hrow]; simp, by rw [← hrow], ?_, ?_⟩
          · rw [← hdb', ← hrow]
            exact List.mem_append_right _ (List.mem_cons_self _ _)
          · intro cur hcur
            obtain ⟨hcurMem, hcurKey⟩ := adminGetVersionApplicableOn_mem hcur
            rw [← hdb']
            rw [hcur]
            refine ⟨{ cur with effective_to := some today }, ?_, by simp [hcurKey], by simp, by simp⟩
            apply List.mem_append_left
            have := List.mem_map_of_mem (fun (r : RuleDef) =>
              if r.rule_key = k ∧ r.version = cur.version then
                { r with effective_to := some today } else r) hcurMem
            simpa [hcurKey] using this
    · rw [if_pos (by simpa using hb1)] at heq
      exact absurd (congrArg (fun p => p.2) heq) (by simp)

def c8DB : DB := ⟨0, [⟨"a", 1, 0, none, "", "", 7, 1, 1⟩], [], [], 0⟩
def c8DBafter : DB :=
  ⟨0, [⟨"a", 1, 0, some 10, "", "", 7, 1, 1⟩, ⟨"a", 2, 11, none, "", "", 7, 2, 1⟩],
   [], [], 0⟩
def c8row : RuleDef := ⟨"a", 2, 11, none, "", "", 7, 2, 1⟩
def c8DBbad : DB :=
  ⟨0, [⟨"a", 1, 0, none, "", "", 7, 1, 1⟩, ⟨"a", 2, 11, none, "", "", 7, 1, 1⟩],
   [], [], 0⟩

theorem c8_witness :
    (∃ r ∈ c8DBbad.rule_defs, r.rule_key = "a" ∧ r.effective_from = 10 + 1) ∧
    adminAddNewVersion c8DBbad 10 "a" "" "" 7 1 1 = (c8DBbad, .error .validationError) ∧
    adminAddNewVersion c8DB 10 "a" "" "" 7 2 1 = (c8DBafter, .ok c8row) ∧
    c8row.effective_from = 10 + 1 :=
  have hbad : ∃ r ∈ c8DBbad.rule_defs, r.rule_key = "a" ∧ r.effective_from = 10 + 1 := by
    decide
  have hok : adminAddNewVersion c8DB 10 "a" "" "" 7 2 1 = (c8DBafter, .ok c8row) := by
    decide
  ⟨hbad,
   (c8_admin_add_version c8DBbad 10 "a" "" "" 7 1 1).1 (Or.inl hbad),
   hok,
   ((c8_admin_add_version c8DB 10 "a" "" "" 7 2 1).2 c8DBafter c8row hok).1⟩

/-! ## Lemmas: date ranges, filters and sums (for the aggregate readers) -/

theorem dateRange_nil {a b : Int} (h : b < a) : dateRange a b = [] := by
  unfold dateRange
  have : (b + 1 - a).toNat = 0 := by omega
  rw [this]
  rfl

theorem dateRange_length (a b : Int) : (dateRange a b).length = (b + 1 - a).toNat := by
  unfold dateRange
  rw [List.length_map, List.length_range]

theorem mem_dateRange {a b d : Int} : d ∈ dateRange a b ↔ a ≤ d ∧ d ≤ b := by
  unfold dateRange
  simp only [List.mem_map, List.mem_range]
  constructor
  · rintro ⟨i, hi, rfl⟩
    omega
  · intro ⟨h1, h2⟩
    refine ⟨(d - a).toNat, by omega, by omega⟩

theorem dateRange_split {a m b : Int} (h1 : a ≤ m) (h2 : m ≤ b + 1) :
    dateRange a b = dateRange a (m - 1) ++ dateRange m b := by
  unfold dateRange
  have hn : (b + 1 - a).toNat = (m - 1 + 1 - a).toNat + (b + 1 - m).toNat := by omega
  rw [hn, List.range_add, List.map_append, List.map_map]
  congr 1
  apply List.map_congr_left
  intro i _
  simp only [Function.comp_apply]
  omega

theorem filterMap_if {α β : Type} (p : α → Prop) [DecidablePred p] (f : α → β)
    (l : List α) :
    l.filterMap (fun x => if p x then some (f x) else none)
      = (l.filter (fun x => decide (p x))).map f := by
  induction l with
  | nil => rfl
  | cons x rest ih =>
    rw [List.filterMap_cons, List.filter_cons]
    by_cases h : p x
    · simp only [if_pos h, decide_eq_true_eq, h, if_true, List.map_cons, ih]
    · simp only [if_neg h, decide_eq_true_eq, h, if_false, ih]

theorem sum_map_filter_add (l : List RuleDef) (p : RuleDef → Bool) (h : RuleDef → ℚ) :
    ((l.filter p).map h).sum + ((l.filter (fun x => !p x)).map h).sum
      = (l.map h).sum := by
  induction l with
  | nil => simp
  | cons x rest ih =>
    rw [List.filter_cons, List.filter_cons]
    cases hp : p x <;> simp only [Bool.not_true, Bool.not_false, if_true, if_false] <;>
      simp [List.map_cons, List.sum_cons, ← ih] <;> ring

theorem sum_map_pos {l : List RuleDef} {h : RuleDef → ℚ}
    (hpos : ∀ x ∈ l, 0 < h x) (hne : l ≠ []) : 0 < (l.map h).sum := by
  induction l with
  | nil => exact absurd rfl hne
  | cons x rest ih =>
    rw [List.map_cons, List.sum_cons]
    rcases List.eq_nil_or_concat rest with rfl | -
    · simpa using hpos x (List.mem_cons_self x [])
    all_goals
      cases rest with
      | nil => simpa using hpos x (List.mem_cons_self x [])
      | cons y ys =>
        have := ih (fun q hq => hpos q (List.mem_cons_of_mem x hq)) (by simp)
        have hx := hpos x (List.mem_cons_self x _)
        linarith

theorem sum_map_nonneg {l : List RuleDef} {h : RuleDef → ℚ}
    (hpos : ∀ x ∈ l, 0 ≤ h x) : 0 ≤ (l.map h).sum := by
  induction l with
  | nil => simp
  | cons x rest ih =>
    rw [List.map_cons, List.sum_cons]
    have := ih (fun q hq => hpos q (List.mem_cons_of_mem x hq))
    have hx := hpos x (List.mem_cons_self x _)
    linarith

theorem foldl_pair_sum {α : Type} (f : α → ℚ × ℚ) :
    ∀ (l : List α) (a b : ℚ),
      l.foldl (fun acc g => (acc.1 + (f g).1, acc.2 + (f g).2)) (a, b)
        = (a + (l.map (fun g => (f g).1)).sum, b + (l.map (fun g => (f g).2)).sum) := by
  intro l
  induction l with
  | nil => intro a b; simp
  | cons x rest ih =>
    intro a b
    rw [List.foldl_cons, ih]
    simp only [List.map_cons, List.sum_cons, Prod.mk.injEq]
    constructor <;> ring

theorem find?_filter_of_imp {α : Type} (p q : α → Bool) (l : List α)
    (himp : ∀ x, p x = true → q x = true) :
    List.find? p (l.filter q) = List.find? p l := by
  induction l with
  | nil => rfl
  | cons x rest ih =>
    rw [List.filter_cons]
    cases hq : q x
    · cases hp : p x
      · rw [if_neg (by simp)]
        rw [List.find?_cons_of_neg _ (by simp [hp]), ih]
      · exact absurd (himp x hp) (by simp [hq])
    · rw [if_pos (by simp)]
      cases hp : p x
      · rw [List.find?_cons_of_neg _ (by simp [hp]),
          List.find?_cons_of_neg _ (by simp [hp]), ih]
      · rw [List.find?_cons_of_pos _ (by simp [hp]),
          List.find?_cons_of_pos _ (by simp [hp])]

theorem getLogState_logsInRange (logs : List LogRow) (a b d : Int) (k : String)
    (h1 : a ≤ d) (h2 : d ≤ b) :
    getLogState (logsInRange logs a b) d k = getLogState logs d k := by
  unfold getLogState findLog logsInRange
  rw [find?_filter_of_imp]
  intro r hr
  simp only [decide_eq_true_eq] at hr ⊢
  omega

/-! ## Lemmas: the version cursor and the per-day weighted sums -/

/-- Spec-side: the rules applicable on a day (resolver semantics). -/
def specApplicable (defs : List RuleDef) (d : Int) : List RuleDef :=
  defs.filter (fun r => appliesOn r d)

theorem validate_true_wf {defs : List RuleDef} (hval : validateRuleDefs defs = true) :
    ∀ r ∈ defs, ¬ malformedSpan r := by
  intro r hr hmal
  have hfalse : validateRuleDefs defs = false := by
    apply (validate_false_iff defs).mpr
    left
    exact List.any_eq_true.mpr ⟨r,
      (List.perm_insertionSort keyEffLe defs).mem_iff.mpr hr, (badRange_iff r).mpr hmal⟩
  rw [hval] at hfalse
  simp at hfalse

theorem validate_true_disjoint {defs : List RuleDef}
    (hpk : (defs.map (fun r => (r.rule_key, r.version))).Nodup)
    (hval : validateRuleDefs defs = true) :
    ∀ r ∈ defs, ∀ r' ∈ defs, r ≠ r' → r.rule_key = r'.rule_key →
      ¬ spansIntersect r r' := by
  intro r hr r' hr' hne hk hint
  have hfalse := (validate_gate_char defs hpk).1.mpr (Or.inr ⟨r, hr, r', hr', hne, hk, hint⟩)
  rw [hval] at hfalse
  simp at hfalse

/-- On a sorted, well-formed, pairwise-disjoint version list, the cursor row
is the one applicable row when there is one: the filtered list is exactly the
cursor's pick when it applies. -/
theorem cursor_filter_char : ∀ (vlist : List RuleDef),
    vlist.Pairwise (fun a b => a.effective_from ≤ b.effective_from) →
    vlist.Pairwise (fun a b => ¬ spansIntersect a b) →
    (∀ r ∈ vlist, ¬ malformedSpan r) →
    ∀ d, vlist.filter (fun r => appliesOn r d)
        = (match cursorPick vlist d with
           | none => []
           | some v => if appliesOn v d then [v] else [])
  | [], _, _, _, _ => rfl
  | [v], _, _, _, d => by
    show List.filter (fun r => appliesOn r d) [v] = (if appliesOn v d = true then [v] else [])
    rw [List.filter_cons]
    cases h : appliesOn v d
    · simp [h]
    · simp [h]
  | v :: w :: rest, hsort, hdisj, hwf, d => by
    have hsort' := List.pairwise_cons.mp hsort
    have hdisj' := List.pairwise_cons.mp hdisj
    by_cases hwd : w.effective_from ≤ d
    · have hvw : ¬ spansIntersect v w := hdisj'.1 w (List.mem_cons_self w rest)
      have hna : appliesOn v d = false := by
        rcases Bool.eq_false_or_eq_true (appliesOn v d) with h | h
        · exfalso
          rw [appliesOn_iff] at h
          apply hvw
          refine ⟨w.effective_from, ?_, ?_⟩
          · rw [appliesOn_iff]
            refine ⟨hsort'.1 w (List.mem_cons_self w rest), ?_⟩
            intro b hb
            have := h.2 b hb
            omega
          · rw [appliesOn_iff]
            refine ⟨le_refl _, ?_⟩
            intro b hb
            have hnm := hwf w (List.mem_cons_of_mem v (List.mem_cons_self w rest))
            by_contra hc
            exact hnm ⟨b, hb, by omega⟩
        · exact h
      have hcur : cursorPick (v :: w :: rest) d = cursorPick (w :: rest) d := by
        simp only [cursorPick, cursorGo, if_pos hwd]
      rw [List.filter_cons, if_neg (by simp [hna]), hcur]
      exact cursor_filter_char (w :: rest) hsort'.2 hdisj'.2
        (fun r hr => hwf r (List.mem_cons_of_mem v hr)) d
    · have hcur : cursorPick (v :: w :: rest) d = some v := by
        simp only [cursorPick, cursorGo, if_neg hwd]
      have htail : (w :: rest).filter (fun r => appliesOn r d) = [] := by
        rw [List.filter_eq_nil_iff]
        intro r hr
        have hle : w.effective_from ≤ r.effective_from := by
          rcases List.mem_cons.mp hr with rfl | hr'
          · exact le_refl _
          · exact (List.pairwise_cons.mp hsort'.2).1 r hr'
        rw [appliesOn_iff]
        rintro ⟨hc, -⟩
        omega
      rw [List.filter_cons, hcur]
      cases ha : appliesOn v d
      · simp [ha, htail]
      · simp [ha, htail]

/-- One group's contribution is the weighted sums over its applicable rows. -/
theorem groupContrib_char (logs : List LogRow) (d : Int) (k : String)
    (vlist : List RuleDef)
    (hkeys : ∀ r ∈ vlist, r.rule_key = k)
    (hsort : vlist.Pairwise (fun a b => a.effective_from ≤ b.effective_from))
    (hdisj : vlist.Pairwise (fun a b => ¬ spansIntersect a b))
    (hwf : ∀ r ∈ vlist, ¬ malformedSpan r) :
    groupContrib logs d (k, vlist)
      = (((vlist.filter (fun r => appliesOn r d)).map (fun r =>
            if getLogState logs d r.rule_key = .PASS then r.weight else 0)).sum,
         ((vlist.filter (fun r => appliesOn r d)).map (fun r => r.weight)).sum) := by
  have hchar := cursor_filter_char vlist hsort hdisj hwf d
  simp only [groupContrib]
  cases hc : cursorPick vlist d with
  | none =>
    have hchar' : vlist.filter (fun r => appliesOn r d) = [] := by
      rw [hc] at hchar
      exact hchar
    rw [hchar']
    show ((0 : ℚ), (0 : ℚ)) = _
    simp
  | some v =>
    have hchar' : vlist.filter (fun r => appliesOn r d)
        = (if appliesOn v d = true then [v] else []) := by
      rw [hc] at hchar
      exact hchar
    show (if appliesOn v d = true then
        (if getLogState logs d k = LogState.PASS then v.weight else 0, v.weight)
      else ((0 : ℚ), (0 : ℚ))) = _
    cases ha : appliesOn v d
    · rw [if_neg (by simp [ha])] at hchar'
      rw [if_neg (by simp [ha]), hchar']
      simp
    · rw [if_pos (by simp [ha])] at hchar'
      have hv : v ∈ vlist := by
        have : v ∈ vlist.filter (fun r => appliesOn r d) := by
          rw [hchar']
          exact List.mem_cons_self v []
        exact (List.mem_filter.mp this).1
      rw [if_pos (by simp [ha]), hchar']
      simp only [List.map_cons, List.map_nil, List.sum_cons, List.sum_nil, add_zero]
      rw [hkeys v hv]

theorem firstKeys_nodup : ∀ l : List String, (firstKeys l).Nodup
  | [] => List.nodup_nil
  | k :: rest => by
    simp only [firstKeys]
    rw [List.nodup_cons]
    refine ⟨?_, List.Nodup.filter _ (firstKeys_nodup rest)⟩
    intro hc
    have := (List.mem_filter.mp hc).2
    simp at this

/-- Summing per-key filtered sums over the distinct keys recovers the sum
over the whole list. -/
theorem sum_over_keys (h : RuleDef → ℚ) :
    ∀ (ks : List String) (l : List RuleDef),
      ks.Nodup → (∀ r ∈ l, r.rule_key ∈ ks) →
      (ks.map (fun k => ((l.filter (fun r => decide (r.rule_key = k))).map h).sum)).sum
        = (l.map h).sum := by
  intro ks
  induction ks with
  | nil =>
    intro l _ hcov
    have hl : l = [] := List.eq_nil_iff_forall_not_mem.mpr
      (fun r hr => absurd (hcov r hr) (List.not_mem_nil _))
    rw [hl]
    simp
  | cons k ks ih =>
    intro l hnd hcov
    rw [List.map_cons, List.sum_cons]
    have hnd' := List.nodup_cons.mp hnd
    have htail : ∀ k' ∈ ks, l.filter (fun r => decide (r.rule_key = k'))
        = (l.filter (fun r => !(decide (r.rule_key = k)))).filter
            (fun r => decide (r.rule_key = k')) := by
      intro k' hk'
      have hkk : k' ≠ k := fun hc => hnd'.1 (hc ▸ hk')
      rw [List.filter_filter]
      apply List.filter_congr
      intro r _
      by_cases hr : r.rule_key = k'
      · simp [hr, fun hc : k' = k => hkk hc]
      · simp [hr]
    have hmapcongr : ks.map (fun k' =>
          ((l.filter (fun r => decide (r.rule_key = k'))).map h).sum)
        = ks.map (fun k' =>
          (((l.filter (fun r => !(decide (r.rule_key = k)))).filter
              (fun r => decide (r.rule_key = k'))).map h).sum) :=
      List.map_congr_left (fun k' hk' => by rw [htail k' hk'])
    rw [hmapcongr, ih (l.filter (fun r => !(decide (r.rule_key = k)))) hnd'.2 ?_]
    · exact sum_map_filter_add l (fun r => decide (r.rule_key = k)) h
    · intro r hr
      obtain ⟨hrl, hnk⟩ := List.mem_filter.mp hr
      rcases List.mem_cons.mp (hcov r hrl) with hc | hc
      · exact absurd hc (by simpa using hnk)
      · exact hc

theorem filter_swap (p q : RuleDef → Bool) (l : List RuleDef) :
    (l.filter p).filter q = (l.filter q).filter p := by
  rw [List.filter_filter, List.filter_filter]
  apply List.filter_congr
  intro r _
  exact Bool.and_comm _ _

/-- The per-day numerator/denominator of the aggregate readers equal the
weighted sums over the rules applicable on that day. -/
theorem dayND_eq_spec (defs : List RuleDef) (logs : List LogRow) (cutoff d : Int)
    (hd : d ≤ cutoff)
    (hpk : (defs.map (fun r => (r.rule_key, r.version))).Nodup)
    (hval : validateRuleDefs defs = true) :
    dayND (buildVersions defs cutoff) logs d
      = (((specApplicable defs d).map (fun r =>
            if getLogState logs d r.rule_key = .PASS then r.weight else 0)).sum,
         ((specApplicable defs d).map (fun r => r.weight)).sum) := by
  have hperm : (List.insertionSort keyEffLe
      (defs.filter (fun r => decide (r.effective_from ≤ cutoff)))).Perm
      (defs.filter (fun r => decide (r.effective_from ≤ cutoff))) :=
    List.perm_insertionSort _ _
  have hndDefs : defs.Nodup := List.Nodup.of_map _ hpk
  have hndRows : (List.insertionSort keyEffLe
      (defs.filter (fun r => decide (r.effective_from ≤ cutoff)))).Nodup :=
    hperm.nodup_iff.mpr (hndDefs.filter _)
  have hmemDefs : ∀ r ∈ List.insertionSort keyEffLe
      (defs.filter (fun r => decide (r.effective_from ≤ cutoff))), r ∈ defs :=
    fun r hr => (List.mem_filter.mp (hperm.mem_iff.mp hr)).1
  -- the per-group hypotheses of `groupContrib_char`, for every key
  have hgc : ∀ k, groupContrib logs d
      (k, (List.insertionSort keyEffLe
        (defs.filter (fun r => decide (r.effective_from ≤ cutoff)))).filter
          (fun r => decide (r.rule_key = k)))
      = (((((List.insertionSort keyEffLe
            (defs.filter (fun r => decide (r.effective_from ≤ cutoff)))).filter
              (fun r => decide (r.rule_key = k))).filter
                (fun r => appliesOn r d)).map (fun r =>
                  if getLogState logs d r.rule_key = .PASS then r.weight else 0)).sum,
         ((((List.insertionSort keyEffLe
            (defs.filter (fun r => decide (r.effective_from ≤ cutoff)))).filter
              (fun r => decide (r.rule_key = k))).filter
                (fun r => appliesOn r d)).map (fun r => r.weight)).sum) := by
    intro k
    have hkeys : ∀ r ∈ (List.insertionSort keyEffLe
        (defs.filter (fun r => decide (r.effective_from ≤ cutoff)))).filter
          (fun r => decide (r.rule_key = k)), r.rule_key = k := by
      intro r hr
      have := (List.mem_filter.mp hr).2
      simpa using this
    have hmemv : ∀ r ∈ (List.insertionSort keyEffLe
        (defs.filter (fun r => decide (r.effective_from ≤ cutoff)))).filter
          (fun r => decide (r.rule_key = k)), r ∈ defs :=
      fun r hr => hmemDefs r (List.mem_filter.mp hr).1
    have hvlnd : ((List.insertionSort keyEffLe
        (defs.filter (fun r => decide (r.effective_from ≤ cutoff)))).filter
          (fun r => decide (r.rule_key = k))).Nodup := hndRows.filter _
    refine groupContrib_char logs d k _ hkeys
      (filter_key_sorted (defs.filter (fun r => decide (r.effective_from ≤ cutoff))) k)
      (List.Pairwise.imp_of_mem ?_ hvlnd)
      (fun r hr => validate_true_wf hval r (hmemv r hr))
    intro a b ha hb hne
    exact validate_true_disjoint hpk hval a (hmemv a ha) b (hmemv b hb) hne
      ((hkeys a ha).trans (hkeys b hb).symm)
  -- the common key-partition/permutation chain, for any weight function
  have hcomp : ∀ h : RuleDef → ℚ,
      ((firstKeys ((List.insertionSort keyEffLe
          (defs.filter (fun r => decide (r.effective_from ≤ cutoff)))).map
            (·.rule_key))).map
        (fun k => ((((List.insertionSort keyEffLe
          (defs.filter (fun r => decide (r.effective_from ≤ cutoff)))).filter
            (fun r => decide (r.rule_key = k))).filter
              (fun r => appliesOn r d)).map h).sum)).sum
      = ((specApplicable defs d).map h).sum := by
    intro h
    have hstep1 : ∀ k, (((List.insertionSort keyEffLe
        (defs.filter (fun r => decide (r.effective_from ≤ cutoff)))).filter
          (fun r => decide (r.rule_key = k))).filter (fun r => appliesOn r d))
        = (((List.insertionSort keyEffLe
            (defs.filter (fun r => decide (r.effective_from ≤ cutoff)))).filter
              (fun r => appliesOn r d)).filter (fun r => decide (r.rule_key = k))) :=
      fun k => filter_swap _ _ _
    rw [List.map_congr_left (fun k _ => by rw [hstep1 k])]
    rw [sum_over_keys h _ _ (firstKeys_nodup _) ?_]
    · have hp2 : (((List.insertionSort keyEffLe
          (defs.filter (fun r => decide (r.effective_from ≤ cutoff)))).filter
            (fun r => appliesOn r d)).map h).Perm
          (((defs.filter (fun r => decide (r.effective_from ≤ cutoff))).filter
            (fun r => appliesOn r d)).map h) :=
        (hperm.filter _).map h
      rw [hp2.sum_eq]
      have hp3 : (defs.filter (fun r => decide (r.effective_from ≤ cutoff))).filter
          (fun r => appliesOn r d) = specApplicable defs d := by
        rw [List.filter_filter]
        apply List.filter_congr
        intro r _
        cases ha : appliesOn r d
        · simp
        · have := (appliesOn_iff r d).mp ha
          simp [decide_eq_true_eq]
          omega
      rw [hp3]
    · intro r hr
      apply (firstKeys_mem _ _).mpr
      exact List.mem_map_of_mem _ (List.mem_filter.mp hr).1
  unfold dayND buildVersions groupByKey
  rw [foldl_pair_sum (groupContrib logs d)]
  simp only [zero_add, List.map_map]
  rw [Prod.mk.injEq]
  constructor
  · rw [List.map_congr_left (fun k _ => by
      show (groupContrib logs d _).1 = _
      rw [hgc k])]
    exact hcomp _
  · rw [List.map_congr_left (fun k _ => by
      show (groupContrib logs d _).2 = _
      rw [hgc k])]
    exact hcomp _

/-! ## C6: the discipline index against its specification -/

/-- Spec-side daily ratio: PASS weight over total weight of the applicable
rules. -/
def specDayRatio (defs : List RuleDef) (logs : List LogRow) (d : Int) : ℚ :=
  ((specApplicable defs d).map (fun r =>
      if getLogState logs d r.rule_key = .PASS then r.weight else 0)).sum
    / ((specApplicable defs d).map (fun r => r.weight)).sum

/-- Spec-side set of counted days: days of the elastic window having at least
one applicable rule. -/
def specIncludedDays (defs : List RuleDef) (appStart endDate w : Int) : List Int :=
  (dateRange (max appStart (endDate - (w - 1))) endDate).filter
    (fun d => decide (specApplicable defs d ≠ []))

/-- Modelled from the spec's words: mean of the included days' ratios, 0 when
no day is included. -/
def disciplineIndexSpec (defs : List RuleDef) (logs : List LogRow)
    (appStart endDate w : Int) : ℚ :=
  if specIncludedDays defs appStart endDate w = [] then 0
  else ((specIncludedDays defs appStart endDate w).map (specDayRatio defs logs)).sum
        / ((specIncludedDays defs appStart endDate w).length : ℚ)

theorem sum_map_one {α : Type} (l : List α) : (l.map (fun _ => (1 : ℚ))).sum = l.length := by
  induction l with
  | nil => simp
  | cons x rest ih =>
    simp only [List.map_cons, List.sum_cons, ih, List.length_cons]
    push_cast
    ring

/-- C6: with positive weights, `compute_discipline_index` covers the range
`[max(app_start, end − w + 1) .. end]`, excludes exactly the days with no
applicable rule from the count and the mean, and returns the mean of the
included days' weight ratios (0 when none); hence a window with applicable
days but no PASS scores exactly 0 and an all-PASS window scores exactly 1. -/
theorem c6_discipline_index (db : DB) (endDate w : Int) (res : DIResult)
    (hpk : (db.rule_defs.map (fun r => (r.rule_key, r.version))).Nodup)
    (hpos : ∀ r ∈ db.rule_defs, 0 < r.weight)
    (hok : computeDisciplineIndex db endDate w = .ok res) :
    res.start_date = max db.app_start (endDate - (w - 1)) ∧
    res.end_date = endDate ∧
    res.days = (specIncludedDays db.rule_defs db.app_start endDate w).length ∧
    res.di = disciplineIndexSpec db.rule_defs db.rule_logs db.app_start endDate w ∧
    ((∀ d ∈ dateRange (max db.app_start (endDate - (w - 1))) endDate,
        ∀ r ∈ db.rule_defs, appliesOn r d = true →
          getLogState db.rule_logs d r.rule_key ≠ .PASS) → res.di = 0) ∧
    (((∀ d ∈ dateRange (max db.app_start (endDate - (w - 1))) endDate,
        ∀ r ∈ db.rule_defs, appliesOn r d = true →
          getLogState db.rule_logs d r.rule_key = .PASS) ∧
      specIncludedDays db.rule_defs db.app_start endDate w ≠ []) → res.di = 1) := by
  unfold computeDisciplineIndex at hok
  by_cases hval : validateRuleDefs db.rule_defs = true
  swap
  · rw [if_neg hval] at hok
    exact absurd hok (by simp)
  rw [if_pos hval] at hok
  by_cases hlt : endDate < max db.app_start (endDate - (w - 1))
  · rw [if_pos hlt] at hok
    injection hok with hok'
    have hrange : dateRange (max db.app_start (endDate - (w - 1))) endDate = [] :=
      dateRange_nil hlt
    have hinc : specIncludedDays db.rule_defs db.app_start endDate w = [] := by
      unfold specIncludedDays
      rw [hrange]
      rfl
    have hspec : disciplineIndexSpec db.rule_defs db.rule_logs db.app_start endDate w
        = 0 := by
      unfold disciplineIndexSpec
      rw [if_pos hinc]
    rw [← hok']
    refine ⟨rfl, rfl, by rw [hinc]; rfl, by rw [hspec], fun _ => rfl, ?_⟩
    rintro ⟨-, hne⟩
    exact absurd hinc hne
  · rw [if_neg hlt] at hok
    injection hok with hok'
    -- per-day value of the fold, over the full-log store
    have hday : ∀ d ∈ dateRange (max db.app_start (endDate - (w - 1))) endDate,
        dayND (buildVersions db.rule_defs endDate)
          (logsInRange db.rule_logs (max db.app_start (endDate - (w - 1))) endDate) d
        = (((specApplicable db.rule_defs d).map (fun r =>
              if getLogState db.rule_logs d r.rule_key = .PASS then r.weight else 0)).sum,
           ((specApplicable db.rule_defs d).map (fun r => r.weight)).sum) := by
      intro d hd
      obtain ⟨hd1, hd2⟩ := mem_dateRange.mp hd
      rw [dayND_eq_spec db.rule_defs _ endDate d hd2 hpk hval]
      rw [Prod.mk.injEq]
      constructor
      · apply congrArg
        apply List.map_congr_left
        intro r _
        rw [getLogState_logsInRange db.rule_logs _ endDate d r.rule_key hd1 hd2]
      · rfl
    -- the fold's scores list is the spec's included-day ratio list
    have hfm : (dateRange (max db.app_start (endDate - (w - 1))) endDate).filterMap
          (fun d =>
            let nd := dayND (buildVersions db.rule_defs endDate)
              (logsInRange db.rule_logs (max db.app_start (endDate - (w - 1))) endDate) d
            if 0 < nd.2 then some (nd.1 / nd.2) else none)
        = ((dateRange (max db.app_start (endDate - (w - 1))) endDate).filter
            (fun d => decide (0 < (dayND (buildVersions db.rule_defs endDate)
              (logsInRange db.rule_logs (max db.app_start (endDate - (w - 1))) endDate)
                d).2))).map
          (fun d => (dayND (buildVersions db.rule_defs endDate)
              (logsInRange db.rule_logs (max db.app_start (endDate - (w - 1))) endDate)
                d).1
            / (dayND (buildVersions db.rule_defs endDate)
              (logsInRange db.rule_logs (max db.app_start (endDate - (w - 1))) endDate)
                d).2) :=
      filterMap_if _ _ _
    have hfilter : (dateRange (max db.app_start (endDate - (w - 1))) endDate).filter
          (fun d => decide (0 < (dayND (buildVersions db.rule_defs endDate)
            (logsInRange db.rule_logs (max db.app_start (endDate - (w - 1))) endDate)
              d).2))
        = specIncludedDays db.rule_defs db.app_start endDate w := by
      unfold specIncludedDays
      apply List.filter_congr
      intro d hd
      rw [hday d hd]
      simp only [decide_eq_decide]
      constructor
      · intro hpos2 hempty
        rw [hempty] at hpos2
        simp at hpos2
      · intro hne
        exact sum_map_pos
          (fun r hr => hpos r (List.mem_filter.mp hr).1) hne
    have hscores : (dateRange (max db.app_start (endDate - (w - 1))) endDate).filterMap
          (fun d =>
            let nd := dayND (buildVersions db.rule_defs endDate)
              (logsInRange db.rule_logs (max db.app_start (endDate - (w - 1))) endDate) d
            if 0 < nd.2 then some (nd.1 / nd.2) else none)
        = (specIncludedDays db.rule_defs db.app_start endDate w).map
            (specDayRatio db.rule_defs db.rule_logs) := by
      rw [hfm, hfilter]
      apply List.map_congr_left
      intro d hd
      have hdr : d ∈ dateRange (max db.app_start (endDate - (w - 1))) endDate :=
        (List.mem_filter.mp hd).1
      rw [hday d hdr]
      rfl
    rw [hscores] at hok'
    have hstart : res.start_date = max db.app_start (endDate - (w - 1)) := by
      rw [← hok']
    have hend : res.end_date = endDate := by rw [← hok']
    have hdays : res.days
        = (specIncludedDays db.rule_defs db.app_start endDate w).length := by
      rw [← hok']
      show ((specIncludedDays db.rule_defs db.app_start endDate w).map
        (specDayRatio db.rule_defs db.rule_logs)).length = _
      rw [List.length_map]
    have hdi : res.di
        = disciplineIndexSpec db.rule_defs db.rule_logs db.app_start endDate w := by
      rw [← hok']
      show (if ((specIncludedDays db.rule_defs db.app_start endDate w).map
          (specDayRatio db.rule_defs db.rule_logs)).isEmpty then (0 : ℚ)
        else ((specIncludedDays db.rule_defs db.app_start endDate w).map
            (specDayRatio db.rule_defs db.rule_logs)).sum
          / (((specIncludedDays db.rule_defs db.app_start endDate w).map
            (specDayRatio db.rule_defs db.rule_logs)).length : ℚ)) = _
      unfold disciplineIndexSpec
      by_cases hinc : specIncludedDays db.rule_defs db.app_start endDate w = []
      · rw [if_pos hinc, hinc]
        rfl
      · rw [if_neg hinc, if_neg (by simp [List.isEmpty_iff, hinc]), List.length_map]
    refine ⟨hstart, hend, hdays, hdi, ?_, ?_⟩
    · intro hnopass
      rw [hdi]
      unfold disciplineIndexSpec
      by_cases hinc : specIncludedDays db.rule_defs db.app_start endDate w = []
      · rw [if_pos hinc]
      · rw [if_neg hinc]
        have hzero : ∀ d ∈ specIncludedDays db.rule_defs db.app_start endDate w,
            specDayRatio db.rule_defs db.rule_logs d = 0 := by
          intro d hd
          have hdr : d ∈ dateRange (max db.app_start (endDate - (w - 1))) endDate :=
            (List.mem_filter.mp hd).1
          unfold specDayRatio
          have hnum : ((specApplicable db.rule_defs d).map (fun r =>
              if getLogState db.rule_logs d r.rule_key = .PASS then r.weight else 0)).sum
              = 0 := by
            apply List.sum_eq_zero
            intro x hx
            obtain ⟨r, hr, rfl⟩ := List.mem_map.mp hx
            obtain ⟨hrd, hra⟩ := List.mem_filter.mp hr
            rw [if_neg (hnopass d hdr r hrd hra)]
          rw [hnum, zero_div]
        rw [List.sum_eq_zero (by
          intro x hx
          obtain ⟨d, hd, rfl⟩ := List.mem_map.mp hx
          exact hzero d hd), zero_div]
    · rintro ⟨hallpass, hne⟩
      rw [hdi]
      unfold disciplineIndexSpec
      rw [if_neg hne]
      have hone : ∀ d ∈ specIncludedDays db.rule_defs db.app_start endDate w,
          specDayRatio db.rule_defs db.rule_logs d = 1 := by
        intro d hd
        obtain ⟨hdr, hdne⟩ := List.mem_filter.mp hd
        have hdne' : specApplicable db.rule_defs d ≠ [] := by simpa using hdne
        unfold specDayRatio
        have hnum : ((specApplicable db.rule_defs d).map (fun r =>
            if getLogState db.rule_logs d r.rule_key = .PASS then r.weight else 0)).sum
            = ((specApplicable db.rule_defs d).map (fun r => r.weight)).sum := by
          apply congrArg
          apply List.map_congr_left
          intro r hr
          obtain ⟨hrd, hra⟩ := List.mem_filter.mp hr
          rw [if_pos (hallpass d hdr r hrd hra)]
        rw [hnum]
        apply div_self
        have := sum_map_pos (l := specApplicable db.rule_defs d)
          (fun r hr => hpos r (List.mem_filter.mp hr).1) hdne'
        exact ne_of_gt this
      rw [List.map_congr_left hone, sum_map_one]
      apply div_self
      have hlen : 0 < (specIncludedDays db.rule_defs db.app_start endDate w).length :=
        List.length_pos.mpr hne
      exact_mod_cast Nat.pos_iff_ne_zero.mp hlen

def c6DB : DB := ⟨0, [⟨"a", 1, 0, none, "", "", 7, 1, 1⟩],
  [⟨0, "a", .PASS⟩, ⟨1, "a", .PASS⟩], [], 0⟩
def c6res : DIResult := ⟨1, 2, 0, 1⟩

theorem c6_witness :
    (c6DB.rule_defs.map (fun r => (r.rule_key, r.version))).Nodup ∧
    (∀ r ∈ c6DB.rule_defs, 0 < r.weight) ∧
    computeDisciplineIndex c6DB 1 2 = .ok c6res ∧
    c6res.di = disciplineIndexSpec c6DB.rule_defs c6DB.rule_logs c6DB.app_start 1 2 :=
  ⟨by decide, by decide, by decide,
   (c6_discipline_index c6DB 1 2 c6res (by decide) (by decide) (by decide)).2.2.2.1⟩

/-! ## C7: prefix-sum rolling means against naive recomputation -/

/-- The direct O(W) computation: mean of the daily values over the window
clipped to `app_start`, every covered day counted. -/
def naiveWindowMean (appStart : Int) (f : Int → ℚ) (d W : Int) : ℚ :=
  ((dateRange (max appStart (d - (W - 1))) d).map f).sum
    / (((dateRange (max appStart (d - (W - 1))) d).length : Nat) : ℚ)

theorem dateRange_take {a b c : Int} (ha : a - 1 ≤ c) (hc : c ≤ b) :
    (dateRange a b).take (c + 1 - a).toNat = dateRange a c := by
  rw [dateRange_split (show a ≤ c + 1 by omega) (show c + 1 ≤ b + 1 by omega)]
  have hsimp : c + 1 - 1 = c := by omega
  rw [hsimp]
  apply List.take_left'
  rw [dateRange_length]

theorem cumSum_dateRange_map {a b c : Int} (f : Int → ℚ) (ha : a - 1 ≤ c) (hc : c ≤ b) :
    cumSum ((dateRange a b).map f) (c + 1 - a).toNat = ((dateRange a c).map f).sum := by
  unfold cumSum
  rw [← List.map_take, dateRange_take ha hc]

theorem avg_eq_naive (appStart internalStart endDate d W : Int) (f : Int → ℚ)
    (hIS : internalStart ≤ max appStart (d - (W - 1)))
    (hsd : max appStart (d - (W - 1)) ≤ d)
    (hd : d ≤ endDate) :
    avgForDay appStart internalStart ((dateRange internalStart endDate).map f) d W
      = naiveWindowMean appStart f d W := by
  unfold avgForDay naiveWindowMean
  simp only []
  set s := max appStart (d - (W - 1)) with hs
  have h1 : (d - internalStart + 1).toNat = (d + 1 - internalStart).toNat := by omega
  have h2 : (s - internalStart).toNat = (s - 1 + 1 - internalStart).toNat := by omega
  rw [h1, h2,
    cumSum_dateRange_map f (show internalStart - 1 ≤ d by omega) hd,
    cumSum_dateRange_map f (show internalStart - 1 ≤ s - 1 by omega)
      (show s - 1 ≤ endDate by omega)]
  rw [dateRange_split (show internalStart ≤ s by omega) (show s ≤ d + 1 by omega),
    List.map_append, List.sum_append, add_sub_cancel_left]
  congr 1
  rw [dateRange_length]
  have h3 : ((d + 1 - s).toNat : Int) = d + 1 - s := Int.toNat_of_nonneg (by omega)
  have h4 : d - internalStart - (s - internalStart) + 1 = d + 1 - s := by ring
  rw [h4, ← h3]
  norm_cast

/-- C7: with positive window sizes, every plotted row's rolling means, derived
by prefix-sum subtraction over the extended internal range, equal the naive
mean of the daily `di1` values over the clipped window
`[max(app_start, d − W + 1) .. d]`. -/
theorem c7_prefix_sum_rolling_mean (db : DB) (endDate plotDays w1 w2 : Int) (res : TSResult)
    (hw1 : 1 ≤ w1) (hw2 : 1 ≤ w2)
    (hok : computeDiTimeseries db endDate plotDays w1 w2 = .ok res) :
    ∀ row ∈ res.rows,
      row.diA = naiveWindowMean db.app_start
        (di1At (buildVersions db.rule_defs endDate)
          (logsInRange db.rule_logs
            (max db.app_start (max db.app_start (endDate - (plotDays - 1)) - (max w1 w2 - 1)))
            endDate))
        row.date w1 ∧
      row.diB = naiveWindowMean db.app_start
        (di1At (buildVersions db.rule_defs endDate)
          (logsInRange db.rule_logs
            (max db.app_start (max db.app_start (endDate - (plotDays - 1)) - (max w1 w2 - 1)))
            endDate))
        row.date w2 := by
  unfold computeDiTimeseries at hok
  by_cases hval : validateRuleDefs db.rule_defs = true
  swap
  · rw [if_neg hval] at hok
    exact absurd hok (by simp)
  rw [if_pos hval] at hok
  by_cases hend : endDate < db.app_start
  · rw [if_pos hend] at hok
    injection hok with hok'
    intro row hrow
    rw [← hok'] at hrow
    simp at hrow
  · rw [if_neg hend] at hok
    injection hok with hok'
    intro row hrow
    rw [← hok'] at hrow
    obtain ⟨d, hd, rfl⟩ := List.mem_map.mp hrow
    obtain ⟨hd1, hd2⟩ := mem_dateRange.mp hd
    exact ⟨avg_eq_naive _ _ _ _ _ _ (by omega) (by omega) hd2,
           avg_eq_naive _ _ _ _ _ _ (by omega) (by omega) hd2⟩

def c7DB : DB := ⟨0, [⟨"a", 1, 0, none, "", "", 7, 1, 1⟩],
  [⟨0, "a", .PASS⟩, ⟨1, "a", .MISS⟩], [], 0⟩
def c7res : TSResult := ⟨[⟨0, 1, 1, 1⟩, ⟨1, 0, 1/2, 0⟩], 0, 1⟩

theorem c7_witness :
    (1 : Int) ≤ 2 ∧ (1 : Int) ≤ 1 ∧
    computeDiTimeseries c7DB 1 5 2 1 = .ok c7res ∧
    ∀ row ∈ c7res.rows,
      row.diA = naiveWindowMean c7DB.app_start
        (di1At (buildVersions c7DB.rule_defs 1)
          (logsInRange c7DB.rule_logs
            (max c7DB.app_start (max c7DB.app_start (1 - (5 - 1)) - (max 2 1 - 1))) 1))
        row.date 2 ∧
      row.diB = naiveWindowMean c7DB.app_start
        (di1At (buildVersions c7DB.rule_defs 1)
          (logsInRange c7DB.rule_logs
            (max c7DB.app_start (max c7DB.app_start (1 - (5 - 1)) - (max 2 1 - 1))) 1))
        row.date 1 :=
  ⟨by decide, by decide, by decide,
   c7_prefix_sum_rolling_mean c7DB 1 5 2 1 c7res (by decide) (by decide) (by decide)⟩

/-! ## C10: zero-weight days in the time-series are counted, not excluded -/

/-- Catalog with one rule effective only on day 1: day 0 has no applicable
rule, so the time-series counts it at `di1 = 0` while the discipline index
skips it. -/
def c10DB : DB := ⟨0, [⟨"a", 1, 1, some 1, "", "", 7, 1, 1⟩], [⟨1, "a", .PASS⟩], [], 0⟩
def c10ts : TSResult := ⟨[⟨1, 1, 1/2, 1/2⟩], 1, 1⟩
def c10di : DIResult := ⟨1, 1, 0, 1⟩
def c10row : TSRow := ⟨1, 1, 1/2, 1/2⟩

/-- C10: in `compute_di_timeseries` every day of the plotted range appears as
a row (days with no applicable rule or non-positive total weight are not
excluded), such a day's daily ratio is 0, and every rolling mean is the
naive mean over the full clipped window, counting those days in the
denominator; consequently on a concrete store the rolling value for a window
differs from `compute_discipline_index` over the same range, which excludes
those days. -/
theorem c10_zero_days_counted (db : DB) (endDate plotDays w1 w2 : Int) (res : TSResult)
    (hpk : (db.rule_defs.map (fun r => (r.rule_key, r.version))).Nodup)
    (hw1 : 1 ≤ w1) (hw2 : 1 ≤ w2)
    (hok : computeDiTimeseries db endDate plotDays w1 w2 = .ok res) :
    (∀ row ∈ res.rows,
        (specApplicable db.rule_defs row.date = [] ∨
         ((specApplicable db.rule_defs row.date).map (fun r => r.weight)).sum ≤ 0) →
        row.di1 = 0) ∧
    (endDate < db.app_start ∨
      res.rows.map TSRow.date
        = dateRange (max db.app_start (endDate - (plotDays - 1))) endDate) ∧
    (∀ row ∈ res.rows,
      row.diA = naiveWindowMean db.app_start
        (di1At (buildVersions db.rule_defs endDate)
          (logsInRange db.rule_logs
            (max db.app_start (max db.app_start (endDate - (plotDays - 1)) - (max w1 w2 - 1)))
            endDate))
        row.date w1 ∧
      row.diB = naiveWindowMean db.app_start
        (di1At (buildVersions db.rule_defs endDate)
          (logsInRange db.rule_logs
            (max db.app_start (max db.app_start (endDate - (plotDays - 1)) - (max w1 w2 - 1)))
            endDate))
        row.date w2) ∧
    (computeDiTimeseries c10DB 1 1 2 2 = .ok c10ts ∧
     computeDisciplineIndex c10DB 1 2 = .ok c10di ∧
     c10row ∈ c10ts.rows ∧ c10row.date = 1 ∧ c10ts.end_date = 1 ∧
     c10row.diA ≠ c10di.di) := by
  unfold computeDiTimeseries at hok
  by_cases hval : validateRuleDefs db.rule_defs = true
  swap
  · rw [if_neg hval] at hok
    exact absurd hok (by simp)
  rw [if_pos hval] at hok
  by_cases hend : endDate < db.app_start
  · rw [if_pos hend] at hok
    injection hok with hok'
    refine ⟨?_, Or.inl hend, ?_, by decide, by decide, by decide, by decide, by decide,
      by decide⟩
    · intro row hrow
      rw [← hok'] at hrow
      simp at hrow
    · intro row hrow
      rw [← hok'] at hrow
      simp at hrow
  · rw [if_neg hend] at hok
    injection hok with hok'
    refine ⟨?_, Or.inr ?_, ?_, by decide, by decide, by decide, by decide, by decide,
      by decide⟩
    · intro row hrow hz
      rw [← hok'] at hrow
      obtain ⟨d, hd, rfl⟩ := List.mem_map.mp hrow
      obtain ⟨hd1, hd2⟩ := mem_dateRange.mp hd
      show di1At (buildVersions db.rule_defs endDate) _ d = 0
      have hle : ((specApplicable db.rule_defs d).map (fun r => r.weight)).sum ≤ 0 := by
        rcases hz with hz | hz
        · rw [hz]
          simp
        · exact hz
      unfold di1At
      simp only []
      rw [dayND_eq_spec db.rule_defs _ endDate d hd2 hpk hval]
      rw [if_neg (not_lt.mpr hle)]
    · rw [← hok']
      show ((dateRange (max db.app_start (endDate - (plotDays - 1))) endDate).map _).map
        TSRow.date = _
      rw [List.map_map]
      exact List.map_id _
    · intro row hrow
      rw [← hok'] at hrow
      obtain ⟨d, hd, rfl⟩ := List.mem_map.mp hrow
      obtain ⟨hd1, hd2⟩ := mem_dateRange.mp hd
      exact ⟨avg_eq_naive _ _ _ _ _ _ (by omega) (by omega) hd2,
             avg_eq_naive _ _ _ _ _ _ (by omega) (by omega) hd2⟩

theorem c10_witness :
    (c10DB.rule_defs.map (fun r => (r.rule_key, r.version))).Nodup ∧
    (1 : Int) ≤ 2 ∧
    computeDiTimeseries c10DB 1 1 2 2 = .ok c10ts ∧
    (∀ row ∈ c10ts.rows,
        (specApplicable c10DB.rule_defs row.date = [] ∨
         ((specApplicable c10DB.rule_defs row.date).map (fun r => r.weight)).sum ≤ 0) →
        row.di1 = 0) ∧
    computeDisciplineIndex c10DB 1 2 = .ok c10di ∧
    c10row.diA ≠ c10di.di :=
  ⟨by decide, by decide, by decide,
   (c10_zero_days_counted c10DB 1 1 2 2 c10ts (by decide) (by decide) (by decide)
      (by decide)).1,
   by decide, by decide⟩

end HabitEngine
